import Mathlib

/-!
# brainfuck.c: a shallow embedding of `interpret`

The embedding follows `src/brainfuck.c` for the x86-64 System V target the
program is written for (`memory_size` is printed with `%lu`): `char` is a
signed 8-bit integer, `unsigned short` has 16 bits, `unsigned int` 32 bits and
`size_t` 64 bits.  Machine integers are natural numbers or integers with the
reductions modulo `2^w` written out where the C code performs them.

The interpreter is a small-step machine.  One step is one call of `fgetc`
together with the code that runs before the next call: either one turn of the
main `while` loop (lines 144-191) or one turn of the skip-forward `do`/`while`
loop (lines 175-179).
-/

namespace Brainfuck

/-- One byte of the source file, as `fgetc` delivers it (an `unsigned char`). -/
abbrev Byte := Fin 256

/-- `STACK_SIZE` (line 47). -/
def STACK_SIZE : Nat := 512

/-- `EOF` of `<stdio.h>`. -/
def EOF : Int := -1

/-- `PTRDIFF_MAX`: no object returned by `malloc` has more bytes than this, so
no tape has more cells. -/
def PTRDIFF_MAX : Nat := 2 ^ 63 - 1

/-- Where control is between two calls of `fgetc`, or how the run ended. -/
inductive Status where
  /-- About to evaluate the condition of the main `while` loop (line 144). -/
  | running
  /-- Inside the `do`/`while` of lines 175-179 with the given value of `nest`,
  about to call `fgetc` at line 176. -/
  | skipping (nest : Int)
  /-- The main loop was left at line 144; the file is closed and `interpret`
  returns (lines 193-194). -/
  | returned
  /-- Lines 184-185: `stack underflow` was printed and `exit(1)` called. -/
  | underflow
  /-- Line 171 with `SP >= STACK_SIZE`: the store `STACK[SP++] = ...` lands
  outside the array (undefined behaviour; the source has no check). -/
  | stackOutOfBounds
  /-- A tape access `MEMORY[ptr]` with `ptr` not below the tape length
  (undefined behaviour; the source has no check). -/
  | tapeOutOfBounds
  /-- Lines 155/158 with `memory_size = 0`: `% memory_size` divides by zero. -/
  | divByZero
  deriving DecidableEq, Repr

/-- The global state of the interpreter together with the position of the
source file and the bytes written to standard output. -/
structure Machine where
  /-- `MEMORY` (line 49): the tape; `memory_size` is its length. -/
  MEMORY : List Nat
  /-- `ptr` (line 50), an `unsigned int`. -/
  ptr : Nat
  /-- `max_ptr` (line 51), an `int`. -/
  max_ptr : Int
  /-- `STACK` (line 52), an array of `STACK_SIZE` values of type `unsigned short`. -/
  STACK : List Nat
  /-- `SP` (line 53), an `unsigned int`. -/
  SP : Nat
  /-- The file position of `file`, as `ftell` reports it. -/
  pos : Nat
  /-- The bytes written to standard output so far (both `printf` calls of
  `interpret` write there). -/
  out : List Nat
  status : Status
  deriving DecidableEq, Repr

/-- `memory_size` (line 59): `main` allocates exactly that many cells. -/
def Machine.memory_size (s : Machine) : Nat := s.MEMORY.length

/-- The part of `STACK` in use: the entries below `SP`, oldest first. -/
def Machine.loopStack (s : Machine) : List Nat := s.STACK.take s.SP

/-- `fgetc(file)`: the byte at the file position and the position after it, or
`EOF` with the position unchanged when there is no byte left. -/
def fgetc (src : List Byte) (pos : Nat) : Int × Nat :=
  match src[pos]? with
  | some b => ((b.val : Int), pos + 1)
  | none => (EOF, pos)

/-- Conversion of an `int` to `char` (signed, 8 bits), as in `ch = fgetc(file)`. -/
def toChar (i : Int) : Int := (i + 128) % 256 - 128

/-- Conversion of an `int` to `unsigned int`. -/
def toUInt (i : Int) : Nat := (i % 4294967296).toNat

/-- Conversion of an `unsigned int` to `int` (two's complement). -/
def toInt (n : Nat) : Int :=
  if n % 4294967296 < 2147483648 then (n % 4294967296 : Nat) else (n % 4294967296 : Nat) - 4294967296

/-- The bytes of the text `stack underflow` and a newline, which line 184 prints. -/
def underflowMessage : List Nat :=
  [115, 116, 97, 99, 107, 32, 117, 110, 100, 101, 114, 102, 108, 111, 119, 10]

/-- Lines 146-148: `if (ptr > max_ptr) max_ptr = ptr;` (the comparison is made
in `unsigned int`, the assignment converts back to `int`). -/
def updateMax (s : Machine) : Int :=
  if s.ptr > toUInt s.max_ptr then toInt s.ptr else s.max_ptr

/-- Line 155: `ptr = (ptr - 1 + memory_size) % memory_size;` with `ptr - 1`
computed in `unsigned int`, the sum and remainder in `size_t`, and the result
converted back to `unsigned int`. -/
def moveLeft (ptr memory_size : Nat) : Nat :=
  (((ptr + 4294967296 - 1) % 4294967296 + memory_size) % 18446744073709551616 % memory_size)
    % 4294967296

/-- Line 158: `ptr = (ptr + 1 + memory_size) % memory_size;` with `ptr + 1`
computed in `unsigned int`, the sum and remainder in `size_t`, and the result
converted back to `unsigned int`. -/
def moveRight (ptr memory_size : Nat) : Nat :=
  (((ptr + 1) % 4294967296 + memory_size) % 18446744073709551616 % memory_size)
    % 4294967296

/-- `fseek(file, offset, SEEK_SET)`: a negative offset is refused and leaves
the file position where it is. -/
def fseek (pos : Nat) (offset : Int) : Nat :=
  if offset < 0 then pos else offset.toNat

/-- The `switch` of lines 153-190 for the character `ch`, in a state whose file
position is already past `ch` and whose `max_ptr` is already updated. -/
def dispatch (ch : Int) (s : Machine) : Machine :=
  if ch = 60 then          -- '<'
    if s.memory_size = 0 then { s with status := .divByZero }
    else { s with ptr := moveLeft s.ptr s.memory_size }
  else if ch = 62 then     -- '>'
    if s.memory_size = 0 then { s with status := .divByZero }
    else { s with ptr := moveRight s.ptr s.memory_size }
  else if ch = 43 then     -- '+'
    match s.MEMORY[s.ptr]? with
    | some v => { s with MEMORY := s.MEMORY.set s.ptr ((v + 1) % 256) }
    | none => { s with status := .tapeOutOfBounds }
  else if ch = 45 then     -- '-'
    match s.MEMORY[s.ptr]? with
    | some v => { s with MEMORY := s.MEMORY.set s.ptr ((v + 255) % 256) }
    | none => { s with status := .tapeOutOfBounds }
  else if ch = 46 then     -- '.'
    match s.MEMORY[s.ptr]? with
    | some v => { s with out := s.out ++ [v] }
    | none => { s with status := .tapeOutOfBounds }
  else if ch = 91 then     -- '['
    match s.MEMORY[s.ptr]? with
    | some v =>
      if v ≠ 0 then
        if s.SP < STACK_SIZE then
          { s with STACK := s.STACK.set s.SP (s.pos % 65536), SP := s.SP + 1 }
        else { s with status := .stackOutOfBounds }
      else { s with status := .skipping 1 }
    | none => { s with status := .tapeOutOfBounds }
  else if ch = 93 then     -- ']'
    if s.SP = 0 then
      { s with out := s.out ++ underflowMessage, status := .underflow }
    else
      { s with SP := s.SP - 1,
               pos := fseek s.pos ((s.STACK.getD (s.SP - 1) 0 : Nat) - 1) }
  else s

/-- One turn of the main loop: read a character at line 144, leave the loop if
it compares equal to `EOF`, otherwise update `max_ptr` and dispatch. -/
def stepRunning (src : List Byte) (s : Machine) : Machine :=
  let r := fgetc src s.pos
  let ch := toChar r.1
  if ch = EOF then { s with pos := r.2, status := .returned }
  else dispatch ch { s with pos := r.2, max_ptr := updateMax s }

/-- One turn of the `do`/`while` of lines 175-179, entered with `nest`.  The
loop has no test for `EOF`.  The counter `nest` is an `int` in the source; it
moves by at most one per byte read, so it stays within `int` on any source
shorter than 2 GiB, and the model keeps it as an unbounded integer. -/
def stepSkipping (src : List Byte) (nest : Int) (s : Machine) : Machine :=
  let r := fgetc src s.pos
  let ch := toChar r.1
  let nest1 := if ch = 91 then nest + 1 else nest
  let nest2 := if ch = 93 then nest1 - 1 else nest1
  { s with pos := r.2, status := if nest2 ≠ 0 then .skipping nest2 else .running }

/-- One step of the interpreter; a finished run stays where it is. -/
def step (src : List Byte) (s : Machine) : Machine :=
  match s.status with
  | .running => stepRunning src s
  | .skipping nest => stepSkipping src nest s
  | _ => s

/-- The state after `n` steps from `s`. -/
def run (src : List Byte) : Nat → Machine → Machine
  | 0, s => s
  | n + 1, s => run src n (step src s)

/-- The state in which `main` calls `interpret` on a tape of `N` cells: the
tape zeroed by `memset`, the statics zero, the file just opened. -/
def init (N : Nat) : Machine :=
  { MEMORY := List.replicate N 0, ptr := 0, max_ptr := 0,
    STACK := List.replicate STACK_SIZE 0, SP := 0, pos := 0, out := [],
    status := .running }

/-- `interpret` on the source `src` and a zeroed tape of `N` cells, cut off
after `fuel` steps. -/
def interpret (src : List Byte) (N : Nat) (fuel : Nat) : Machine :=
  run src fuel (init N)

/-- A run has ended: `interpret` returned, the process exited, or the C program
has no defined behaviour any more. -/
def Status.finished : Status → Bool
  | .running => false
  | .skipping _ => false
  | _ => true

/-- The bracket balance of a stretch of source text: the number of `[` minus
the number of `]` in it. -/
def balance (l : List Byte) : Int := (l.count 91 : Int) - (l.count 93 : Int)

/-- Bracket matching by balanced counting, as the specification words it: the
byte at offset `k` is `[`, and `m` is the first offset after `k` at which the
balance of the text from `k` up to and including `m` is back at `0`. -/
def MatchingClose (src : List Byte) (k m : Nat) : Prop :=
  src[k]? = some 91 ∧ k < m ∧ m < src.length ∧
  balance ((src.drop k).take (m + 1 - k)) = 0 ∧
  ∀ j < m, k ≤ j → 0 < balance ((src.drop k).take (j + 1 - k))

instance (src : List Byte) (k m : Nat) : Decidable (MatchingClose src k m) := by
  unfold MatchingClose
  infer_instance

/-- The cell value that the step from `s` sends to standard output for a `.`
instruction: one value if that step executes a `.`, nothing otherwise. -/
def dotValue (src : List Byte) (s : Machine) : List Nat :=
  if s.status = .running ∧ src[s.pos]? = some 46 then (s.MEMORY[s.ptr]?).toList else []

/-- The current-cell values at the `.` instructions executed by the first `n`
steps from `s`, in execution order. -/
def dotValues (src : List Byte) : Nat → Machine → List Nat
  | 0, _ => []
  | n + 1, s => dotValue src s ++ dotValues src n (step src s)

/-- The source made of `n` characters `+` followed by `[>+<-]`. -/
def copyIdiom (n : Nat) : List Byte :=
  List.replicate n 43 ++ [91, 62, 43, 60, 45, 93]

/-- A source with a loop past offset 65535: `+`, then 65535 blanks, then `[-]`,
so that the `[` is at offset 65536. -/
def farLoop : List Byte :=
  43 :: (List.replicate 65535 32 ++ [91, 45, 93])

/-! ## Command line, memory dump and comments -/

/-- The three globals that `argparse` sets: `memory_size`, `dump` and `verbose`
(lines 59-61). -/
structure Config where
  memory_size : Nat
  dump : Bool
  verbose : Bool
  deriving DecidableEq, Repr

/-- The initial values of the configuration globals (lines 59-61). -/
def defaultConfig : Config := { memory_size := 512, dump := false, verbose := false }

/-- How `argparse` ends. -/
inductive ArgResult where
  /-- The loop of line 89 ran to its end and `argparse` returns. -/
  | parsed (c : Config)
  /-- Lines 104-106: `invalid option` and the usage text were printed and
  `exit(1)` called for the given argument. -/
  | invalidOption (arg : String)
  /-- Line 92 with `-m` as the last argument: `argv[i+1]` is the terminating
  null pointer and `strtoul` is called on it (undefined behaviour). -/
  | nullArgument
  deriving DecidableEq, Repr

/-- `argparse` (lines 85-111) on the option list `argv + 2`.  The library
function `strtoul(_, _, 10)` is a parameter. -/
def argparse (strtoul : String → Nat) : List String → Config → ArgResult
  | [], c => .parsed c
  | a :: rest, c =>
    if a = "-m" ∨ a = "--memory" then
      match rest with
      | v :: rest1 => argparse strtoul rest1 { c with memory_size := strtoul v }
      | [] => .nullArgument
    else if a = "-d" ∨ a = "--dump" then
      argparse strtoul rest { c with dump := true }
    else if a = "-v" ∨ a = "--verbose" then
      argparse strtoul rest { c with verbose := true }
    else .invalidOption a

/-- One hexadecimal digit in upper case, as `%X` prints it. -/
def hexDigit (d : Nat) : Nat := if d < 10 then 48 + d else 55 + d

/-- The bytes printed by `printf("%2X ", v)` for a cell value `v`. -/
def hexCell (v : Nat) : List Nat :=
  (if v < 16 then [32, hexDigit v] else [hexDigit (v / 16), hexDigit (v % 16)]) ++ [32]

/-- The bytes printed by lines 123-129 for a cell value `v` (`isprint` in the
C locale holds for 32 to 126). -/
def asciiCell (v : Nat) : List Nat :=
  if 32 ≤ v ∧ v ≤ 126 then [32, v, 32]
  else if v = 10 then [92, 110, 32]
  else [32, 46, 32]

/-- What a read of `MEMORY[k]` by `dump_mem` finds: the cell `k` of the tape,
or, when `k` is not below `memory_size`, the byte that lies at that address
after the tape.  The inner loops of `dump_mem` have no bound check, so such
reads happen; `beyond` stands for the bytes after the tape (as `unsigned
char`, hence `% 256`), which `dump_mem` reads and never writes. -/
def peek (mem : List Nat) (beyond : Nat → Nat) (k : Nat) : Nat :=
  (mem[k]?).getD (beyond k % 256)

/-- The 16 values `MEMORY[i] .. MEMORY[i + 15]` that one row of the dump reads. -/
def dumpCells (mem : List Nat) (beyond : Nat → Nat) (i : Nat) : List Nat :=
  (List.range 16).map (fun j => peek mem beyond (i + j))

/-- The text of the row of the dump that starts at cell `i` (lines 118-131). -/
def dumpRow (mem : List Nat) (beyond : Nat → Nat) (i : Nat) : List Nat :=
  ((dumpCells mem beyond i).map hexCell).flatten ++ [9] ++
    ((dumpCells mem beyond i).map asciiCell).flatten ++ [10]

/-- The loop of line 117 from row start `i`, on the tape `mem` with
`memory_size = mem.length`; `fuel` bounds the number of rows, and
`memory_size` rows are always enough because `i` grows by 16 and stays below
`memory_size`. -/
def dumpLoop (mem : List Nat) (beyond : Nat → Nat) (max_ptr : Int) : Nat → Nat → List Nat
  | 0, _ => []
  | fuel + 1, i =>
    if i < mem.length ∧ (i : Int) < max_ptr then
      dumpRow mem beyond i ++ dumpLoop mem beyond max_ptr fuel (i + 16)
    else []

/-- The text `dump_mem` writes to standard output. -/
def dumpText (beyond : Nat → Nat) (s : Machine) : List Nat :=
  dumpLoop s.MEMORY beyond s.max_ptr s.memory_size 0

/-- `dump_mem` (lines 113-133): it assigns to no global; its only effect is the
text appended to standard output. -/
def dump_mem (beyond : Nat → Nat) (s : Machine) : Machine :=
  { s with out := s.out ++ dumpText beyond s }

/-- The seven instruction characters `<>+-.[]`. -/
def isInstruction (b : Byte) : Bool :=
  b = 60 ∨ b = 62 ∨ b = 43 ∨ b = 45 ∨ b = 46 ∨ b = 91 ∨ b = 93

/-- The source with every byte that is not an instruction removed. -/
def stripComments (src : List Byte) : List Byte := src.filter isInstruction

/-- A source whose loops nest 513 deep: `+` followed by 513 characters `[`. -/
def deepNest : List Byte := 43 :: List.replicate 513 91

/-- The tape facts that every step keeps: the tape has `N` cells, the pointer
is below `N`, and no tape access or remainder has gone wrong. -/
def TapeOk (N : Nat) (s : Machine) : Prop :=
  s.MEMORY.length = N ∧ s.ptr < N ∧ s.status ≠ .tapeOutOfBounds ∧ s.status ≠ .divByZero

/-! ## Brackets, the loop stack and the reference interpreter -/

/-- The offsets of the `[` that are open at offset `p` of the source, i.e.
the `[` before `p` that are not closed before `p`, outermost first. -/
def opens (src : List Byte) : Nat → List Nat
  | 0 => []
  | p + 1 =>
    match src[p]? with
    | some b =>
      if b = 91 then opens src p ++ [p]
      else if b = 93 then (opens src p).dropLast
      else opens src p
    | none => opens src p

/-- The source has balanced brackets: no prefix closes more loops than it has
opened, and the whole source closes as many as it opens. -/
def BalancedBrackets (src : List Byte) : Prop :=
  (∀ p ≤ src.length, 0 ≤ balance (src.take p)) ∧ balance src = 0

instance (src : List Byte) : Decidable (BalancedBrackets src) := by
  unfold BalancedBrackets
  infer_instance

/-- The loops of the source nest at most `d` deep: no prefix has more than `d`
loops open. -/
def NestingAtMost (src : List Byte) (d : Nat) : Prop :=
  ∀ p ≤ src.length, balance (src.take p) ≤ d

instance (src : List Byte) (d : Nat) : Decidable (NestingAtMost src d) := by
  unfold NestingAtMost
  infer_instance

/-- What ties the loop stack to the source cursor.  With `c` the value of
`nest` inside the skip-forward loop and `0` in the main loop or after the
return, `SP + c` loops are open at the cursor, and the entries of `STACK` below
`SP` are the positions just after the `SP` outermost open `[`. -/
def LoopInv (src : List Byte) (s : Machine) : Prop :=
  s.STACK.length = STACK_SIZE ∧
  ∃ c : Nat,
    ((s.status = .running ∧ c = 0) ∨ (s.status = .returned ∧ c = 0) ∨
      (s.status = .skipping (c : Int) ∧ 0 < c)) ∧
    (opens src s.pos).length = s.SP + c ∧
    s.STACK.take s.SP = ((opens src s.pos).take s.SP).map (· + 1)

/-- The pre-pass of the alternative implementation that the specification
describes: one linear pass over the source with a stack of the offsets of the
open `[`: every `]` that finds an open `[` adds the pair (offset of `[`, offset of
`]`) to the table. -/
def buildTable : List Byte → Nat → List Nat → List (Nat × Nat) → List (Nat × Nat)
  | [], _, _, t => t
  | b :: rest, p, stack, t =>
    if b = 91 then buildTable rest (p + 1) (p :: stack) t
    else if b = 93 then
      match stack with
      | k :: stack1 => buildTable rest (p + 1) stack1 ((k, p) :: t)
      | [] => buildTable rest (p + 1) [] t
    else buildTable rest (p + 1) stack t

/-- The bracket-matching table of a source, computed before execution. -/
def bracketTable (src : List Byte) : List (Nat × Nat) := buildTable src 0 [] []

/-- The offset of the `]` that the table gives for the `[` at offset `k`. -/
def closeOf (t : List (Nat × Nat)) (k : Nat) : Option Nat :=
  (t.find? (fun e => e.1 == k)).map (·.2)

/-- The offset of the `[` that the table gives for the `]` at offset `m`. -/
def openOf (t : List (Nat × Nat)) (m : Nat) : Option Nat :=
  (t.find? (fun e => e.2 == m)).map (·.1)

/-- The table after the first `p` bytes of the pass, written with `opens`. -/
def tableUpTo (src : List Byte) : Nat → List (Nat × Nat)
  | 0 => []
  | p + 1 =>
    match src[p]? with
    | some b =>
      if b = 93 then
        match (opens src p).getLast? with
        | some k => (k, p) :: tableUpTo src p
        | none => tableUpTo src p
      else tableUpTo src p
    | none => tableUpTo src p

/-- How a run of the reference interpreter stands. -/
inductive RefStatus where
  | running
  /-- The source is exhausted; the interpreter returns. -/
  | returned
  /-- A bracket was executed for which the table has no partner. -/
  | unmatched
  | tapeOutOfBounds
  | divByZero
  deriving DecidableEq, Repr

/-- The state of the reference interpreter: tape, data pointer, source
cursor and standard output.  It has no loop stack. -/
structure RefMachine where
  MEMORY : List Nat
  ptr : Nat
  pos : Nat
  out : List Nat
  status : RefStatus
  deriving DecidableEq, Repr

/-- The instruction `ch` read at offset `k`, on the reference interpreter: the
tape operations and the output are those of `dispatch`; `[` on a zero cell
jumps past its matching `]` and `]` on a non-zero cell jumps back to just
after its matching `[`, both by the table `t`. -/
def refDispatch (t : List (Nat × Nat)) (ch : Int) (k : Nat) (r : RefMachine) : RefMachine :=
  if ch = 60 then
    if r.MEMORY.length = 0 then { r with status := .divByZero }
    else { r with ptr := moveLeft r.ptr r.MEMORY.length }
  else if ch = 62 then
    if r.MEMORY.length = 0 then { r with status := .divByZero }
    else { r with ptr := moveRight r.ptr r.MEMORY.length }
  else if ch = 43 then
    match r.MEMORY[r.ptr]? with
    | some v => { r with MEMORY := r.MEMORY.set r.ptr ((v + 1) % 256) }
    | none => { r with status := .tapeOutOfBounds }
  else if ch = 45 then
    match r.MEMORY[r.ptr]? with
    | some v => { r with MEMORY := r.MEMORY.set r.ptr ((v + 255) % 256) }
    | none => { r with status := .tapeOutOfBounds }
  else if ch = 46 then
    match r.MEMORY[r.ptr]? with
    | some v => { r with out := r.out ++ [v] }
    | none => { r with status := .tapeOutOfBounds }
  else if ch = 91 then
    match r.MEMORY[r.ptr]? with
    | some v =>
      if v ≠ 0 then r
      else
        match closeOf t k with
        | some m => { r with pos := m + 1 }
        | none => { r with status := .unmatched }
    | none => { r with status := .tapeOutOfBounds }
  else if ch = 93 then
    match r.MEMORY[r.ptr]? with
    | some v =>
      if v ≠ 0 then
        match openOf t k with
        | some j => { r with pos := j + 1 }
        | none => { r with status := .unmatched }
      else r
    | none => { r with status := .tapeOutOfBounds }
  else r

/-- One step of the reference interpreter: at the end of the source it
returns; otherwise it takes the next byte of the source and executes it.  As
the specification has it, every byte that is not one of the seven instruction
characters is a comment and is skipped, whatever its value. -/
def refStep (src : List Byte) (t : List (Nat × Nat)) (r : RefMachine) : RefMachine :=
  match r.status with
  | .running =>
    match src[r.pos]? with
    | some b => refDispatch t (b.val : Int) r.pos { r with pos := r.pos + 1 }
    | none => { r with status := .returned }
  | _ => r

/-- The state of the reference interpreter after `n` steps from `r`. -/
def refRun (src : List Byte) (t : List (Nat × Nat)) : Nat → RefMachine → RefMachine
  | 0, r => r
  | n + 1, r => refRun src t n (refStep src t r)

/-- The reference interpreter of the specification (bracket-matching table
instead of re-scanning) on `src` and a zeroed tape of `N` cells, cut off after
`fuel` steps: the table is computed first, then the source is executed. -/
def reference (src : List Byte) (N : Nat) (fuel : Nat) : RefMachine :=
  refRun src (bracketTable src) fuel
    { MEMORY := List.replicate N 0, ptr := 0, pos := 0, out := [], status := .running }

/-- A run of the reference interpreter has ended. -/
def RefStatus.finished : RefStatus → Bool
  | .running => false
  | _ => true

/-- What the reference interpreter can see of a state of `interpret` that is
in the main loop or has returned. -/
def toRef (s : Machine) : RefMachine :=
  { MEMORY := s.MEMORY, ptr := s.ptr, pos := s.pos, out := s.out,
    status := if s.status = .returned then .returned else .running }

/-! ## Reading a character -/

theorem fgetc_some {src : List Byte} {pos : Nat} {b : Byte} (h : src[pos]? = some b) :
    fgetc src pos = ((b.val : Int), pos + 1) := by
  simp [fgetc, h]

theorem fgetc_none {src : List Byte} {pos : Nat} (h : src[pos]? = none) :
    fgetc src pos = (EOF, pos) := by
  simp [fgetc, h]

theorem toChar_byte (b : Byte) :
    toChar (b.val : Int) = if b.val < 128 then (b.val : Int) else (b.val : Int) - 256 := by
  have := b.isLt
  unfold toChar
  split <;> omega

theorem toChar_eq_EOF_iff (b : Byte) : toChar (b.val : Int) = EOF ↔ b.val = 255 := by
  have := b.isLt
  rw [toChar_byte]
  unfold EOF
  split <;> omega

theorem toChar_eq_iff (b : Byte) (c : Nat) (hc : c < 128) :
    toChar (b.val : Int) = (c : Int) ↔ b.val = c := by
  have := b.isLt
  rw [toChar_byte]
  split <;> omega

theorem step_running {src : List Byte} {s : Machine} {b : Byte}
    (hrun : s.status = .running) (hb : src[s.pos]? = some b) (h255 : b.val ≠ 255) :
    step src s
      = dispatch (toChar (b.val : Int)) { s with pos := s.pos + 1, max_ptr := updateMax s } := by
  have hne : ¬ toChar (b.val : Int) = EOF := fun h => h255 ((toChar_eq_EOF_iff b).1 h)
  simp [step, hrun, stepRunning, fgetc_some hb, hne]

theorem toChar_lt : toChar (((60 : Byte) : Nat) : Int) = 60 := by decide
theorem toChar_gt : toChar (((62 : Byte) : Nat) : Int) = 62 := by decide
theorem toChar_plus : toChar (((43 : Byte) : Nat) : Int) = 43 := by decide
theorem toChar_minus : toChar (((45 : Byte) : Nat) : Int) = 45 := by decide
theorem toChar_dot : toChar (((46 : Byte) : Nat) : Int) = 46 := by decide
theorem toChar_open : toChar (((91 : Byte) : Nat) : Int) = 91 := by decide
theorem toChar_close : toChar (((93 : Byte) : Nat) : Int) = 93 := by decide
theorem toChar_ff : toChar (((255 : Byte) : Nat) : Int) = -1 := by decide

/-! ## One step of the main loop, instruction by instruction -/

theorem step_lt {src : List Byte} {s : Machine} (hrun : s.status = .running)
    (hb : src[s.pos]? = some 60) (hN : s.MEMORY.length ≠ 0) :
    step src s = { s with ptr := moveLeft s.ptr s.MEMORY.length, pos := s.pos + 1,
                          max_ptr := updateMax s } := by
  rw [step_running hrun hb (by decide), toChar_lt]
  simp [dispatch, Machine.memory_size, hN]

theorem step_gt {src : List Byte} {s : Machine} (hrun : s.status = .running)
    (hb : src[s.pos]? = some 62) (hN : s.MEMORY.length ≠ 0) :
    step src s = { s with ptr := moveRight s.ptr s.MEMORY.length, pos := s.pos + 1,
                          max_ptr := updateMax s } := by
  rw [step_running hrun hb (by decide), toChar_gt]
  simp [dispatch, Machine.memory_size, hN]

theorem step_plus {src : List Byte} {s : Machine} {v : Nat} (hrun : s.status = .running)
    (hb : src[s.pos]? = some 43) (hv : s.MEMORY[s.ptr]? = some v) :
    step src s = { s with MEMORY := s.MEMORY.set s.ptr ((v + 1) % 256), pos := s.pos + 1,
                          max_ptr := updateMax s } := by
  rw [step_running hrun hb (by decide), toChar_plus]
  simp [dispatch, hv]

theorem step_minus {src : List Byte} {s : Machine} {v : Nat} (hrun : s.status = .running)
    (hb : src[s.pos]? = some 45) (hv : s.MEMORY[s.ptr]? = some v) :
    step src s = { s with MEMORY := s.MEMORY.set s.ptr ((v + 255) % 256), pos := s.pos + 1,
                          max_ptr := updateMax s } := by
  rw [step_running hrun hb (by decide), toChar_minus]
  simp [dispatch, hv]

theorem step_dot {src : List Byte} {s : Machine} {v : Nat} (hrun : s.status = .running)
    (hb : src[s.pos]? = some 46) (hv : s.MEMORY[s.ptr]? = some v) :
    step src s = { s with out := s.out ++ [v], pos := s.pos + 1,
                          max_ptr := updateMax s } := by
  rw [step_running hrun hb (by decide), toChar_dot]
  simp [dispatch, hv]

theorem step_open_nonzero {src : List Byte} {s : Machine} {v : Nat}
    (hrun : s.status = .running) (hb : src[s.pos]? = some 91)
    (hv : s.MEMORY[s.ptr]? = some v) (hv0 : v ≠ 0) (hSP : s.SP < STACK_SIZE) :
    step src s = { s with STACK := s.STACK.set s.SP ((s.pos + 1) % 65536), SP := s.SP + 1,
                          pos := s.pos + 1, max_ptr := updateMax s } := by
  rw [step_running hrun hb (by decide), toChar_open]
  simp [dispatch, hv, hv0, hSP]

theorem step_open_zero {src : List Byte} {s : Machine}
    (hrun : s.status = .running) (hb : src[s.pos]? = some 91)
    (hv : s.MEMORY[s.ptr]? = some 0) :
    step src s = { s with status := .skipping 1, pos := s.pos + 1,
                          max_ptr := updateMax s } := by
  rw [step_running hrun hb (by decide), toChar_open]
  simp [dispatch, hv]

theorem step_close_pop {src : List Byte} {s : Machine}
    (hrun : s.status = .running) (hb : src[s.pos]? = some 93) (hSP : s.SP ≠ 0) :
    step src s = { s with SP := s.SP - 1,
                          pos := fseek (s.pos + 1) ((s.STACK.getD (s.SP - 1) 0 : Nat) - 1),
                          max_ptr := updateMax s } := by
  rw [step_running hrun hb (by decide), toChar_close]
  simp [dispatch, hSP]

/-- A byte that is none of the seven instructions and is not `0xFF`. -/
theorem step_other {src : List Byte} {s : Machine} {b : Byte}
    (hrun : s.status = .running) (hb : src[s.pos]? = some b) (h255 : b.val ≠ 255)
    (h60 : b.val ≠ 60) (h62 : b.val ≠ 62) (h43 : b.val ≠ 43) (h45 : b.val ≠ 45)
    (h46 : b.val ≠ 46) (h91 : b.val ≠ 91) (h93 : b.val ≠ 93) :
    step src s = { s with pos := s.pos + 1, max_ptr := updateMax s } := by
  rw [step_running hrun hb h255]
  have e60 := (toChar_eq_iff b 60 (by decide)).not.2 h60
  have e62 := (toChar_eq_iff b 62 (by decide)).not.2 h62
  have e43 := (toChar_eq_iff b 43 (by decide)).not.2 h43
  have e45 := (toChar_eq_iff b 45 (by decide)).not.2 h45
  have e46 := (toChar_eq_iff b 46 (by decide)).not.2 h46
  have e91 := (toChar_eq_iff b 91 (by decide)).not.2 h91
  have e93 := (toChar_eq_iff b 93 (by decide)).not.2 h93
  simp only [Nat.cast_ofNat] at e60 e62 e43 e45 e46 e91 e93
  simp [dispatch, e60, e62, e43, e45, e46, e91, e93]

theorem step_eof {src : List Byte} {s : Machine}
    (hrun : s.status = .running) (hb : src[s.pos]? = none) :
    step src s = { s with status := .returned } := by
  simp [step, hrun, stepRunning, fgetc_none hb, toChar, EOF]

theorem step_byte_ff {src : List Byte} {s : Machine}
    (hrun : s.status = .running) (hb : src[s.pos]? = some 255) :
    step src s = { s with pos := s.pos + 1, status := .returned } := by
  simp [step, hrun, stepRunning, fgetc_some hb, toChar_ff, EOF]

theorem step_finished {src : List Byte} {s : Machine} (h : s.status.finished = true) :
    step src s = s := by
  unfold step
  cases hs : s.status <;> simp_all [Status.finished]

theorem run_finished {src : List Byte} (n : Nat) {s : Machine}
    (h : s.status.finished = true) : run src n s = s := by
  induction n with
  | zero => rfl
  | succ n ih => simp [run, step_finished h, ih]

theorem run_add (src : List Byte) (m n : Nat) (s : Machine) :
    run src (m + n) s = run src n (run src m s) := by
  induction m generalizing s with
  | zero => simp [run]
  | succ m ih => rw [Nat.succ_add]; simp [run, ih]

theorem run_succ (src : List Byte) (n : Nat) (s : Machine) :
    run src (n + 1) s = run src n (step src s) := rfl

theorem run_zero (src : List Byte) (s : Machine) : run src 0 s = s := rfl

theorem set_getElem_same (l : List Nat) (i : Nat) (h : i < l.length) :
    l.set i l[i] = l := by
  apply List.ext_getElem (by simp)
  intro n h1 h2
  by_cases hn : i = n
  · subst hn; simp
  · simp [List.getElem_set_ne hn]

/-! ## Pointer moves -/

theorem moveRight_eq {p N : Nat} (hN : N ≤ PTRDIFF_MAX) :
    moveRight p N = (p + 1) % 4294967296 % N := by
  unfold moveRight
  unfold PTRDIFF_MAX at hN
  have hq : (p + 1) % 4294967296 < 4294967296 := Nat.mod_lt _ (by decide)
  rw [Nat.mod_eq_of_lt (by omega : (p + 1) % 4294967296 + N < 18446744073709551616),
    Nat.add_mod_right]
  exact Nat.mod_eq_of_lt (lt_of_le_of_lt (Nat.mod_le _ _) hq)

/-- C7 (amended): for every tape capacity `N ≥ 1` (at most `PTRDIFF_MAX`) and
every pointer `p < N` (an `unsigned int`, so `p < 2^32`), executing `>` sets
the data pointer to `((p + 1) mod 2^32) mod N`.  This is `(p + 1) mod N`
whenever `N ≤ 2^32` or `p < 2^32 - 1`, so moving right from `N - 1` yields `0`
for every `N ≤ 2^32`.  The tape, the loop stack and the output are unchanged;
only the source cursor advances (and `max_ptr` is updated). -/
theorem move_right_wraps (src : List Byte) (s : Machine)
    (hrun : s.status = .running) (hb : src[s.pos]? = some 62)
    (hN : 1 ≤ s.MEMORY.length) (hmax : s.MEMORY.length ≤ PTRDIFF_MAX)
    (hp : s.ptr < s.MEMORY.length) (hp32 : s.ptr < 4294967296) :
    step src s = { s with ptr := (s.ptr + 1) % 4294967296 % s.MEMORY.length,
                          pos := s.pos + 1, max_ptr := updateMax s } ∧
    (s.MEMORY.length ≤ 4294967296 ∨ s.ptr < 4294967295 →
      (step src s).ptr = (s.ptr + 1) % s.MEMORY.length) ∧
    (s.MEMORY.length ≤ 4294967296 → s.ptr = s.MEMORY.length - 1 → (step src s).ptr = 0) ∧
    (step src s).MEMORY = s.MEMORY ∧ (step src s).STACK = s.STACK ∧
    (step src s).SP = s.SP ∧ (step src s).out = s.out ∧
    (step src s).status = .running := by
  have h := step_gt hrun hb (by omega)
  rw [moveRight_eq hmax] at h
  have hgen : s.MEMORY.length ≤ 4294967296 ∨ s.ptr < 4294967295 →
      (s.ptr + 1) % 4294967296 % s.MEMORY.length = (s.ptr + 1) % s.MEMORY.length := by
    intro hc
    rcases Nat.lt_or_ge (s.ptr + 1) 4294967296 with h1 | h1
    · rw [Nat.mod_eq_of_lt h1]
    · have hN' : s.MEMORY.length = 4294967296 := by omega
      have hp' : s.ptr + 1 = 4294967296 := by omega
      rw [hN', hp']
  refine ⟨h, ?_, ?_, ?_, ?_, ?_, ?_, ?_⟩ <;> simp only [h, hrun]
  · exact hgen
  · intro h32 hlast
    rw [hgen (Or.inl h32), hlast, Nat.sub_add_cancel hN, Nat.mod_self]

theorem move_right_wraps_witness :
    (step [62] { init 3 with ptr := 2 }).ptr = 0 ∧
    (step [62] { init 3 with ptr := 2 }).MEMORY = [0, 0, 0] :=
  ⟨(move_right_wraps [62] { init 3 with ptr := 2 } rfl rfl (by decide) (by decide)
      (by decide) (by decide)).2.2.1 (by decide) rfl,
   (move_right_wraps [62] { init 3 with ptr := 2 } rfl rfl (by decide) (by decide)
      (by decide) (by decide)).2.2.2.1⟩

/-- C7 (counterexample): on a tape of `2^33` cells the source `<>` first moves
the pointer from `0` to `2^32 - 1`, which is below the capacity, and `>` then
sets it to `0`, not to `(2^32 - 1 + 1) mod 2^33 = 2^32`. -/
theorem move_right_wide_tape :
    (interpret [60, 62] 8589934592 1).ptr = 4294967295 ∧
    (interpret [60, 62] 8589934592 1).status = .running ∧
    (interpret [60, 62] 8589934592 1).MEMORY.length = 8589934592 ∧
    (interpret [60, 62] 8589934592 2).ptr = 0 ∧
    (interpret [60, 62] 8589934592 2).ptr
      ≠ ((interpret [60, 62] 8589934592 1).ptr + 1) % 8589934592 := by
  have hlen : (init 8589934592).MEMORY.length = 8589934592 := List.length_replicate _ _
  have h1 : interpret [60, 62] 8589934592 1
      = { init 8589934592 with ptr := 4294967295, pos := 1,
                               max_ptr := updateMax (init 8589934592) } := by
    show step [60, 62] (init 8589934592) = _
    rw [step_lt rfl rfl (by rw [hlen]; decide), hlen]
    have e : moveLeft (init 8589934592).ptr 8589934592 = 4294967295 := by
      show moveLeft 0 8589934592 = 4294967295
      decide
    rw [e]
    rfl
  have h2 : interpret [60, 62] 8589934592 2
      = { interpret [60, 62] 8589934592 1 with
            ptr := 0, pos := 2, max_ptr := updateMax (interpret [60, 62] 8589934592 1) } := by
    show step [60, 62] (interpret [60, 62] 8589934592 1) = _
    have hlen1 : (interpret [60, 62] 8589934592 1).MEMORY.length = 8589934592 := by
      rw [h1]; exact hlen
    rw [step_gt (by rw [h1]; rfl) (by rw [h1]; rfl) (by rw [hlen1]; decide), hlen1]
    have e : moveRight (interpret [60, 62] 8589934592 1).ptr 8589934592 = 0 := by
      rw [h1]
      show moveRight 4294967295 8589934592 = 0
      decide
    have e2 : (interpret [60, 62] 8589934592 1).pos + 1 = 2 := by rw [h1]
    rw [e, e2]
  refine ⟨by rw [h1], by rw [h1]; rfl, by rw [h1]; exact hlen, by rw [h2], ?_⟩
  rw [h2, h1]
  decide

/-- C6 (the code at the failing input): on a tape of 10 cells `<` executed at
pointer 0 leaves the pointer at 5, not at `N - 1 = 9`: `ptr - 1` wraps to
`2^32 - 1` in `unsigned int` before `memory_size` is added, and
`(2^32 - 1 + 10) mod 10 = 5`.  On 30000 cells it leaves 17295. -/
theorem move_left_from_zero_misses :
    (interpret [60] 10 1).ptr = 5 ∧ (interpret [60] 10 1).status = .running ∧
    (interpret [60] 10 1).ptr ≠ 10 - 1 ∧
    moveLeft 0 30000 = 17295 := by
  decide

/-! ## Cell arithmetic -/

/-- C8: with current cell value `v ≤ 255`, `+` stores `(v + 1) mod 256` and `-`
stores `(v + 255) mod 256` in the current cell; the step does not fault and
changes no other cell, nor the pointer, the loop stack or the output; `+-` and
`-+` restore the tape. -/
theorem cell_arithmetic_wraps (src : List Byte) (s : Machine) (v : Nat)
    (hrun : s.status = .running) (hv : s.MEMORY[s.ptr]? = some v) (hv8 : v ≤ 255) :
    (src[s.pos]? = some 43 →
      step src s = { s with MEMORY := s.MEMORY.set s.ptr ((v + 1) % 256), pos := s.pos + 1,
                            max_ptr := updateMax s }) ∧
    (src[s.pos]? = some 45 →
      step src s = { s with MEMORY := s.MEMORY.set s.ptr ((v + 255) % 256), pos := s.pos + 1,
                            max_ptr := updateMax s }) ∧
    (src[s.pos]? = some 43 ∨ src[s.pos]? = some 45 →
      (step src s).status = .running ∧ (step src s).ptr = s.ptr ∧
      (step src s).STACK = s.STACK ∧ (step src s).SP = s.SP ∧ (step src s).out = s.out ∧
      (step src s).MEMORY.length = s.MEMORY.length ∧
      ∀ i, i ≠ s.ptr → (step src s).MEMORY[i]? = s.MEMORY[i]?) ∧
    (src[s.pos]? = some 43 → src[s.pos + 1]? = some 45 →
      (run src 2 s).MEMORY = s.MEMORY ∧ (run src 2 s).status = .running) ∧
    (src[s.pos]? = some 45 → src[s.pos + 1]? = some 43 →
      (run src 2 s).MEMORY = s.MEMORY ∧ (run src 2 s).status = .running) := by
  have hlt : s.ptr < s.MEMORY.length := by
    rcases Nat.lt_or_ge s.ptr s.MEMORY.length with h | h
    · exact h
    · rw [List.getElem?_eq_none h] at hv; cases hv
  have hget : s.MEMORY[s.ptr] = v := by
    rw [List.getElem?_eq_getElem hlt] at hv; exact Option.some.inj hv
  refine ⟨fun hb => step_plus hrun hb hv, fun hb => step_minus hrun hb hv, ?_, ?_, ?_⟩
  · rintro (hb | hb)
    · rw [step_plus hrun hb hv]
      refine ⟨hrun, rfl, rfl, rfl, rfl, by simp, fun i hi => ?_⟩
      simp [List.getElem?_set_ne (Ne.symm hi)]
    · rw [step_minus hrun hb hv]
      refine ⟨hrun, rfl, rfl, rfl, rfl, by simp, fun i hi => ?_⟩
      simp [List.getElem?_set_ne (Ne.symm hi)]
  · intro hb hb2
    have h1 := step_plus hrun hb hv
    have h2 : step src (step src s) = _ :=
      step_minus (s := step src s) (v := (v + 1) % 256) (by rw [h1]; exact hrun)
        (by rw [h1]; exact hb2) (by rw [h1]; simp [hlt])
    show (step src (step src s)).MEMORY = _ ∧ (step src (step src s)).status = _
    rw [h2, h1]
    refine ⟨?_, hrun⟩
    have e : ((v + 1) % 256 + 255) % 256 = v := by omega
    simp only [List.set_set, e]
    rw [← hget]
    exact set_getElem_same _ _ hlt
  · intro hb hb2
    have h1 := step_minus hrun hb hv
    have h2 : step src (step src s) = _ :=
      step_plus (s := step src s) (v := (v + 255) % 256) (by rw [h1]; exact hrun)
        (by rw [h1]; exact hb2) (by rw [h1]; simp [hlt])
    show (step src (step src s)).MEMORY = _ ∧ (step src (step src s)).status = _
    rw [h2, h1]
    refine ⟨?_, hrun⟩
    have e : ((v + 255) % 256 + 1) % 256 = v := by omega
    simp only [List.set_set, e]
    rw [← hget]
    exact set_getElem_same _ _ hlt

theorem cell_arithmetic_wraps_witness :
    (step [43, 45] { init 1 with MEMORY := [255] }).MEMORY = [0] ∧
    (step [45, 43] (init 1)).MEMORY = [255] ∧
    (run [43, 45] 2 { init 1 with MEMORY := [255] }).MEMORY = [255] :=
  ⟨(congrArg Machine.MEMORY ((cell_arithmetic_wraps [43, 45] { init 1 with MEMORY := [255] }
      255 rfl rfl (by decide)).1 rfl)).trans rfl,
   (congrArg Machine.MEMORY ((cell_arithmetic_wraps [45, 43] (init 1) 0 rfl rfl
      (by decide)).2.1 rfl)).trans rfl,
   ((cell_arithmetic_wraps [43, 45] { init 1 with MEMORY := [255] } 255 rfl rfl
      (by decide)).2.2.2.1 rfl rfl).1⟩

/-! ## The skip-forward scan -/

theorem balance_cons (b : Byte) (l : List Byte) : balance (b :: l) = balance [b] + balance l := by
  unfold balance
  simp only [List.count_cons, List.count_nil]
  push_cast
  ring

theorem step_skipping {src : List Byte} {s : Machine} {c : Int} {b : Byte}
    (hs : s.status = .skipping c) (hb : src[s.pos]? = some b) :
    step src s = { s with pos := s.pos + 1,
                          status := if c + balance [b] ≠ 0 then .skipping (c + balance [b])
                                    else .running } := by
  have e91 : toChar (b.val : Int) = 91 ↔ b = 91 := by
    rw [show (91 : Int) = ((91 : Nat) : Int) from rfl, toChar_eq_iff b 91 (by decide)]
    exact ⟨fun h => Fin.ext h, fun h => by rw [h]; rfl⟩
  have e93 : toChar (b.val : Int) = 93 ↔ b = 93 := by
    rw [show (93 : Int) = ((93 : Nat) : Int) from rfl, toChar_eq_iff b 93 (by decide)]
    exact ⟨fun h => Fin.ext h, fun h => by rw [h]; rfl⟩
  simp only [step, hs, stepSkipping, fgetc_some hb, e91, e93]
  by_cases h91 : b = 91
  · subst h91
    simp [balance]
  · by_cases h93 : b = 93
    · subst h93
      simp [balance]
      rfl
    · have h1 : ¬ (91 : Byte) = b := fun h => h91 h.symm
      have h2 : ¬ (93 : Byte) = b := fun h => h93 h.symm
      simp [balance, h91, h93, List.count_cons, h1, h2]

/-- At the end of the source the skip-forward loop reads `EOF` again and again
and leaves the state as it is. -/
theorem step_skipping_eof {src : List Byte} {s : Machine} {c : Int}
    (hs : s.status = .skipping c) (hc : c ≠ 0) (hb : src[s.pos]? = none) :
    step src s = s := by
  simp [step, hs, stepSkipping, fgetc_none hb, toChar, EOF, hc]
  rw [← hs]

/-- A scan whose counter never returns to `0` in the rest of the source never
ends: after any number of steps the machine is still inside the skip-forward
loop, with the tape, the pointer, the stack and the output untouched. -/
theorem run_skipping_unterminated (src : List Byte) :
    ∀ (n : Nat) (s : Machine) (c : Int), s.status = .skipping c →
      (∀ j, 0 < c + balance ((src.drop s.pos).take j)) →
      ∃ (c1 : Int) (p : Nat), c1 ≠ 0 ∧
        run src n s = { s with pos := p, status := .skipping c1 } := by
  intro n
  induction n with
  | zero =>
    intro s c hs hpos
    have h0 := hpos 0
    rw [List.take_zero] at h0
    exact ⟨c, s.pos, by
      have : balance [] = 0 := rfl
      omega, by rw [run_zero, ← hs]⟩
  | succ n ih =>
    intro s c hs hpos
    have hc : 0 < c := by
      have h0 := hpos 0
      rw [List.take_zero] at h0
      have : balance [] = 0 := rfl
      omega
    rcases Nat.lt_or_ge s.pos src.length with hlt | hge
    · have hb : src[s.pos]? = some src[s.pos] := List.getElem?_eq_getElem hlt
      have h1 : 0 < c + balance [src[s.pos]] := by
        have := hpos 1
        rwa [List.drop_eq_getElem_cons hlt, List.take_succ_cons, List.take_zero] at this
      have hstep : step src s
          = { s with pos := s.pos + 1, status := .skipping (c + balance [src[s.pos]]) } := by
        rw [step_skipping hs hb]
        simp [ne_of_gt h1]
      obtain ⟨c1, p, hc1, hrun⟩ := ih (step src s) (c + balance [src[s.pos]])
        (by rw [hstep]) (by
          intro j
          have := hpos (j + 1)
          rw [List.drop_eq_getElem_cons hlt, List.take_succ_cons, balance_cons] at this
          rw [hstep]
          show 0 < c + balance [src[s.pos]] + balance ((src.drop (s.pos + 1)).take j)
          omega)
      refine ⟨c1, p, hc1, ?_⟩
      rw [run_succ, hrun, hstep]
    · have hb : src[s.pos]? = none := List.getElem?_eq_none hge
      obtain ⟨c1, p, hc1, hrun⟩ := ih s c hs hpos
      refine ⟨c1, p, hc1, ?_⟩
      rw [run_succ, step_skipping_eof hs (ne_of_gt hc) hb, hrun]

theorem run_skipping_eof {src : List Byte} {s : Machine} {c : Int}
    (hs : s.status = .skipping c) (hc : c ≠ 0) (hb : src[s.pos]? = none) (n : Nat) :
    run src n s = s := by
  induction n with
  | zero => rfl
  | succ n ih => rw [run_succ, step_skipping_eof hs hc hb, ih]

theorem take_drop_succ {src : List Byte} {pos : Nat} (h : pos < src.length) (j : Nat) :
    (src.drop pos).take (j + 1) = src[pos] :: (src.drop (pos + 1)).take j := by
  rw [List.drop_eq_getElem_cons h, List.take_succ_cons]

/-- The scan from a state inside the skip-forward loop with counter `c > 0`: if
the counter first returns to `0` after `d + 1` more bytes, the machine is back
in the main loop after `d + 1` steps with only the cursor moved, and it is
scanning in every state before that. -/
theorem run_skipping (src : List Byte) :
    ∀ (d : Nat) (s : Machine) (c : Int), s.status = .skipping c → 0 < c →
      s.pos + d < src.length →
      (∀ j < d, 0 < c + balance ((src.drop s.pos).take (j + 1))) →
      c + balance ((src.drop s.pos).take (d + 1)) = 0 →
      run src (d + 1) s = { s with pos := s.pos + d + 1, status := .running } ∧
      ∀ i ≤ d, ∃ c1 : Int, c1 ≠ 0 ∧
        run src i s = { s with pos := s.pos + i, status := .skipping c1 } := by
  intro d
  induction d with
  | zero =>
    intro s c hs hc hlen _ hend
    have hlt : s.pos < src.length := by omega
    have hb : src[s.pos]? = some src[s.pos] := List.getElem?_eq_getElem hlt
    rw [take_drop_succ hlt 0, List.take_zero] at hend
    refine ⟨?_, ?_⟩
    · rw [run_succ, run_zero, step_skipping hs hb]
      simp [hend]
    · intro i hi
      have hi0 : i = 0 := by omega
      subst hi0
      exact ⟨c, by omega, by rw [run_zero, ← hs]; rfl⟩
  | succ d ih =>
    intro s c hs hc hlen hpos hend
    have hlt : s.pos < src.length := by omega
    have hb : src[s.pos]? = some src[s.pos] := List.getElem?_eq_getElem hlt
    have h0 : 0 < c + balance [src[s.pos]] := by
      have := hpos 0 (by omega)
      rwa [take_drop_succ hlt 0, List.take_zero] at this
    have hstep : step src s
        = { s with pos := s.pos + 1, status := .skipping (c + balance [src[s.pos]]) } := by
      rw [step_skipping hs hb]
      simp [ne_of_gt h0]
    have hrec := ih (step src s) (c + balance [src[s.pos]]) (by rw [hstep]) h0
      (by rw [hstep]; show s.pos + 1 + d < src.length; omega)
      (by
        intro j hj
        have := hpos (j + 1) (by omega)
        rw [take_drop_succ hlt (j + 1), balance_cons] at this
        rw [hstep]
        show 0 < c + balance [src[s.pos]] + balance ((src.drop (s.pos + 1)).take (j + 1))
        omega)
      (by
        rw [take_drop_succ hlt (d + 1), balance_cons] at hend
        rw [hstep]
        show c + balance [src[s.pos]] + balance ((src.drop (s.pos + 1)).take (d + 1)) = 0
        omega)
    refine ⟨?_, ?_⟩
    · rw [run_succ, hrec.1, hstep]
      simp only [Machine.mk.injEq, true_and, and_true]
      omega
    · intro i hi
      rcases Nat.eq_zero_or_pos i with hi0 | hipos
      · subst hi0
        exact ⟨c, by omega, by rw [run_zero, ← hs]; rfl⟩
      · obtain ⟨i1, rfl⟩ : ∃ i1, i = i1 + 1 := ⟨i - 1, by omega⟩
        obtain ⟨c1, hc1, hrun1⟩ := hrec.2 i1 (by omega)
        refine ⟨c1, hc1, ?_⟩
        rw [run_succ, hrun1, hstep]
        simp only [Machine.mk.injEq, true_and, and_true]
        omega

/-- C2: if `[` at offset `k` is read while the current cell is `0` and its
matching `]` (by balanced counting) is at offset `m`, then executing the `[`,
which takes the read of `[` and the `m - k` reads of the scan, leaves the tape,
the data pointer, the loop stack and the output unchanged and the source cursor
at `m + 1`; every state in between is inside the scan, with the same tape,
pointer, stack and output, so nothing between `k` and `m` is executed. -/
theorem skip_loop_on_zero (src : List Byte) (s : Machine) (k m : Nat)
    (hrun : s.status = .running) (hk : s.pos = k) (hm : MatchingClose src k m)
    (hcell : s.MEMORY[s.ptr]? = some 0) :
    run src (m + 1 - k) s = { s with pos := m + 1, max_ptr := updateMax s } ∧
    ∀ i, 1 ≤ i → i ≤ m - k → ∃ c : Int, c ≠ 0 ∧
      run src i s = { s with pos := k + i, max_ptr := updateMax s, status := .skipping c } := by
  obtain ⟨hopen, hkm, hmlen, hbal, hpre⟩ := hm
  subst hk
  have hlt : s.pos < src.length := by omega
  have hget : src[s.pos] = 91 := by
    rw [List.getElem?_eq_getElem hlt] at hopen
    exact Option.some.inj hopen
  have hstep := step_open_zero hrun hopen hcell
  have hw : balance [(91 : Byte)] = 1 := by decide
  have hscan := run_skipping src (m - s.pos - 1) (step src s) 1 (by rw [hstep]) (by decide)
    (by rw [hstep]; show s.pos + 1 + (m - s.pos - 1) < src.length; omega)
    (by
      intro j hj
      have := hpre (s.pos + 1 + j) (by omega) (by omega)
      rw [show s.pos + 1 + j + 1 - s.pos = (j + 1) + 1 by omega, take_drop_succ hlt,
        balance_cons, hget, hw] at this
      rw [hstep]
      exact this)
    (by
      rw [show m + 1 - s.pos = (m - s.pos - 1 + 1) + 1 by omega, take_drop_succ hlt,
        balance_cons, hget, hw] at hbal
      rw [hstep]
      exact hbal)
  refine ⟨?_, ?_⟩
  · rw [show m + 1 - s.pos = (m - s.pos - 1 + 1) + 1 by omega, run_succ, hscan.1, hstep]
    simp only [Machine.mk.injEq, true_and, and_true, hrun]
    omega
  · intro i hi1 hi2
    obtain ⟨i1, rfl⟩ : ∃ i1, i = i1 + 1 := ⟨i - 1, by omega⟩
    obtain ⟨c1, hc1, hrun1⟩ := hscan.2 i1 (by omega)
    refine ⟨c1, hc1, ?_⟩
    rw [run_succ, hrun1, hstep]
    simp only [Machine.mk.injEq, true_and, and_true]
    omega

theorem skip_loop_on_zero_witness :
    MatchingClose [91, 91, 43, 93, 43, 93] 0 5 ∧
    (run [91, 91, 43, 93, 43, 93] 6 (init 1)).pos = 6 ∧
    (run [91, 91, 43, 93, 43, 93] 6 (init 1)).MEMORY = [0] ∧
    (run [91, 91, 43, 93, 43, 93] 6 (init 1)).status = .running :=
  have h := (skip_loop_on_zero [91, 91, 43, 93, 43, 93] (init 1) 0 5 rfl rfl (by decide) rfl).1
  ⟨by decide, by rw [h], by rw [h]; rfl, by rw [h]; rfl⟩

/-! ## Faults and the end of a run -/

theorem init_cell_zero (N : Nat) : (init (N + 1)).MEMORY[(init (N + 1)).ptr]? = some 0 := by
  simp [init, List.replicate_succ]

/-- C5 (the code at the failing input): on the source `[+` and a zeroed tape
the run never ends.  After the reads of `[` and `+` the skip-forward loop is
at the end of the source with `nest = 1`; every further `fgetc` returns `EOF`,
which is neither bracket, so the state repeats for ever: no fault is reported
and `interpret` does not return. -/
theorem unterminated_skip_never_ends :
    ∀ N n : Nat, (interpret [91, 43] (N + 1) n).status.finished = false ∧
      (interpret [91, 43] (N + 1) (n + 2)).status = .skipping 1 ∧
      (interpret [91, 43] (N + 1) (n + 2)).pos = 2 ∧
      (interpret [91, 43] (N + 1) (n + 2)).out = [] := by
  intro N n
  have h1 : step [91, 43] (init (N + 1)) = _ :=
    step_open_zero (s := init (N + 1)) rfl rfl (init_cell_zero N)
  have h2 : step [91, 43] (step [91, 43] (init (N + 1))) = _ :=
    step_skipping (s := step [91, 43] (init (N + 1))) (c := 1) (b := 43)
      (by rw [h1]) (by rw [h1]; rfl)
  have hw : balance [(43 : Byte)] = 0 := by decide
  rw [hw] at h2
  simp only [add_zero, ne_eq, one_ne_zero, not_false_eq_true, if_true] at h2
  have hfix : ∀ k, run [91, 43] (k + 2) (init (N + 1))
      = step [91, 43] (step [91, 43] (init (N + 1))) := by
    intro k
    rw [Nat.add_comm, run_add]
    show run [91, 43] k (step [91, 43] (step [91, 43] (init (N + 1)))) = _
    exact run_skipping_eof (c := 1) (by rw [h2]) (by decide) (by rw [h2, h1]; rfl) k
  have hlate : (interpret [91, 43] (N + 1) (n + 2)).status = .skipping 1 ∧
      (interpret [91, 43] (N + 1) (n + 2)).pos = 2 ∧
      (interpret [91, 43] (N + 1) (n + 2)).out = [] := by
    unfold interpret
    rw [hfix n, h2, h1]
    exact ⟨rfl, rfl, rfl⟩
  refine ⟨?_, hlate⟩
  unfold interpret
  match n with
  | 0 => rfl
  | 1 => show (step [91, 43] (init (N + 1))).status.finished = false; rw [h1]; rfl
  | k + 2 => rw [hfix k, h2]; rfl

/-- C10 (the code at the failing input): the byte `0xFF` is not skipped.
Stored in the `char` variable `ch` it compares equal to `EOF`, so the main
loop is left at once: on the source `0xFF + .` the run ends after one step,
with the cell still `0` and no output, while the same source without the first
byte outputs the byte `1`. -/
theorem byte_ff_ends_the_run :
    (interpret [255, 43, 46] 1 1).status = .returned ∧
    (∀ n, (interpret [255, 43, 46] 1 (n + 1)).MEMORY = [0] ∧
      (interpret [255, 43, 46] 1 (n + 1)).out = []) ∧
    (interpret [43, 46] 1 3).status = .returned ∧
    (interpret [43, 46] 1 3).out = [1] := by
  have h1 : step [255, 43, 46] (init 1) = _ := step_byte_ff (s := init 1) rfl rfl
  refine ⟨by show (step [255, 43, 46] (init 1)).status = _; rw [h1], fun n => ?_,
    by decide, by decide⟩
  have h2 : interpret [255, 43, 46] 1 (n + 1) = step [255, 43, 46] (init 1) :=
    run_finished n (by rw [h1]; rfl)
  rw [h2, h1]
  exact ⟨rfl, rfl⟩

/-! ## Standard output -/

theorem dispatch_out (ch : Int) (s : Machine) (hrun : s.status = .running) :
    (dispatch ch s).out
      = s.out ++ (if ch = 46 then (s.MEMORY[s.ptr]?).toList else [])
          ++ (if (dispatch ch s).status = .underflow then underflowMessage else []) := by
  by_cases h60 : ch = 60
  · subst h60
    by_cases hN : s.memory_size = 0 <;> simp [dispatch, hN, hrun]
  by_cases h62 : ch = 62
  · subst h62
    by_cases hN : s.memory_size = 0 <;> simp [dispatch, hN, hrun]
  by_cases h43 : ch = 43
  · subst h43
    rcases hv : s.MEMORY[s.ptr]? with _ | v <;> simp [dispatch, hv, hrun]
  by_cases h45 : ch = 45
  · subst h45
    rcases hv : s.MEMORY[s.ptr]? with _ | v <;> simp [dispatch, hv, hrun]
  by_cases h46 : ch = 46
  · subst h46
    rcases hv : s.MEMORY[s.ptr]? with _ | v <;> simp [dispatch, hv, hrun]
  by_cases h91 : ch = 91
  · subst h91
    rcases hv : s.MEMORY[s.ptr]? with _ | v
    · simp [dispatch, hv, hrun]
    · by_cases hv0 : v = 0
      · simp [dispatch, hv, hv0, hrun]
      · by_cases hSP : s.SP < STACK_SIZE <;> simp [dispatch, hv, hv0, hSP, hrun]
  by_cases h93 : ch = 93
  · subst h93
    by_cases hSP : s.SP = 0 <;> simp [dispatch, hSP, hrun]
  simp [dispatch, h60, h62, h43, h45, h46, h91, h93, hrun]

/-- What one step adds to standard output: the current cell if the step
executes `.`, the fault report if the step ends the run with stack underflow,
nothing otherwise. -/
theorem step_out (src : List Byte) (s : Machine) :
    (step src s).out
      = s.out ++ dotValue src s
          ++ (if (step src s).status = .underflow ∧ s.status ≠ .underflow
              then underflowMessage else []) := by
  rcases hs : s.status with _ | c | _ | _ | _ | _ | _
  · rcases hb : src[s.pos]? with _ | b
    · rw [step_eof hs hb]
      simp [dotValue, hs, hb]
    · by_cases h255 : b.val = 255
      · have hb2 : src[s.pos]? = some 255 := by rw [hb, ← Fin.ext (a := b) (b := 255) h255]
        have h46 : ¬ b = 46 := by
          intro h; rw [h] at h255; exact absurd h255 (by decide)
        rw [step_byte_ff hs hb2]
        simp [dotValue, hs, hb, h46]
      · rw [step_running hs hb h255,
          dispatch_out (toChar (b.val : Int))
            { s with pos := s.pos + 1, max_ptr := updateMax s } hs]
        have e46 : toChar (b.val : Int) = 46 ↔ b = 46 := by
          rw [show (46 : Int) = ((46 : Nat) : Int) from rfl, toChar_eq_iff b 46 (by decide)]
          exact ⟨fun h => Fin.ext h, fun h => by rw [h]; rfl⟩
        simp [dotValue, hs, hb, e46]
  all_goals
    have hfin : s.status.finished = true ∨ ∃ c, s.status = .skipping c := by
      rw [hs]; first | exact Or.inl rfl | exact Or.inr ⟨_, rfl⟩
    rcases hfin with hfin | ⟨c1, hc1⟩
    · rw [step_finished hfin]
      simp [dotValue, hs]
    · rcases hb : src[s.pos]? with _ | b
      · simp only [step, hs, stepSkipping, fgetc_none hb, dotValue]
        split_ifs <;> simp_all
      · simp only [step, hs, stepSkipping, fgetc_some hb, dotValue]
        split_ifs <;> simp_all

theorem dotValue_of_not_running {src : List Byte} {s : Machine}
    (h : s.status ≠ .running) : dotValue src s = [] := by
  simp [dotValue, h]

theorem dotValues_finished {src : List Byte} (n : Nat) {s : Machine}
    (h : s.status.finished = true) : dotValues src n s = [] := by
  have hnr : s.status ≠ .running := by
    intro hr; rw [hr] at h; cases h
  induction n with
  | zero => rfl
  | succ n ih => simp [dotValues, step_finished h, ih, dotValue_of_not_running hnr]

theorem dotValue_nil_of_step_underflow {src : List Byte} {s : Machine}
    (h : (step src s).status = .underflow) : dotValue src s = [] := by
  unfold dotValue
  split_ifs with hc
  · obtain ⟨hrun, hb⟩ := hc
    rcases hv : s.MEMORY[s.ptr]? with _ | v
    · rfl
    · rw [step_dot hrun hb hv] at h
      rw [hrun] at h
      cases h
  · rfl

theorem run_out (src : List Byte) :
    ∀ (n : Nat) (s : Machine), (run src n s).out
      = s.out ++ dotValues src n s
          ++ (if (run src n s).status = .underflow ∧ s.status ≠ .underflow
              then underflowMessage else []) := by
  intro n
  induction n with
  | zero =>
    intro s
    simp [run, dotValues]
  | succ n ih =>
    intro s
    rw [run_succ, ih (step src s), step_out src s]
    simp only [dotValues]
    by_cases hA : (step src s).status = .underflow ∧ s.status ≠ .underflow
    · have hfin : (step src s).status.finished = true := by rw [hA.1]; rfl
      rw [run_finished n hfin, dotValues_finished n hfin,
        dotValue_nil_of_step_underflow hA.1]
      simp [hA.1, hA.2]
    · rw [if_neg hA]
      by_cases hs : s.status = .underflow
      · have hfin : s.status.finished = true := by rw [hs]; rfl
        simp [step_finished hfin, run_finished n hfin, hs]
      · have hstep : (step src s).status ≠ .underflow := fun h => hA ⟨h, hs⟩
        simp [hs, hstep]

theorem moveRight_zero {N : Nat} (h2 : 2 ≤ N) (hmax : N ≤ PTRDIFF_MAX) :
    moveRight 0 N = 1 := by
  rw [moveRight_eq hmax]
  exact Nat.mod_eq_of_lt (by omega)

theorem moveLeft_one {N : Nat} (hmax : N ≤ PTRDIFF_MAX) : moveLeft 1 N = 0 := by
  unfold moveLeft
  unfold PTRDIFF_MAX at hmax
  have e : (1 + 4294967296 - 1) % 4294967296 = 0 := by decide
  rw [e, Nat.zero_add, Nat.mod_eq_of_lt (by omega : N < 18446744073709551616), Nat.mod_self]

theorem run_dots (rest stk : List Nat) (hmax : rest.length + 2 ≤ PTRDIFF_MAX) :
    ∃ mp, run [43, 43, 43, 46, 62, 43, 46] 8
        { MEMORY := 0 :: 0 :: rest, ptr := 0, max_ptr := 0, STACK := stk, SP := 0, pos := 0,
          out := [], status := .running }
      = { MEMORY := 3 :: 1 :: rest, ptr := 1, max_ptr := mp, STACK := stk, SP := 0, pos := 7,
          out := [3, 1], status := .returned } := by
  rw [run_succ, step_plus (v := 0) (by rfl) (by rfl) (by simp)]
  simp only [List.set_cons_zero, Nat.reduceAdd, Nat.reduceMod]
  rw [run_succ, step_plus (v := 1) (by rfl) (by rfl) (by simp)]
  simp only [List.set_cons_zero, Nat.reduceAdd, Nat.reduceMod]
  rw [run_succ, step_plus (v := 2) (by rfl) (by rfl) (by simp)]
  simp only [List.set_cons_zero, Nat.reduceAdd, Nat.reduceMod]
  rw [run_succ, step_dot (v := 3) (by rfl) (by rfl) (by simp)]
  simp only [List.nil_append, Nat.reduceAdd]
  rw [run_succ, step_gt (by rfl) (by rfl) (by simp)]
  simp only [Nat.reduceAdd]
  rw [moveRight_zero (by simp) (by simpa using hmax)]
  rw [run_succ, step_plus (v := 0) (by rfl) (by rfl) (by simp)]
  simp only [List.set_cons_zero, List.set_cons_succ, Nat.reduceAdd, Nat.reduceMod]
  rw [run_succ, step_dot (v := 1) (by rfl) (by rfl) (by simp)]
  simp only [List.singleton_append, Nat.reduceAdd]
  rw [run_succ, step_eof (by rfl) (by rfl)]
  exact ⟨_, rfl⟩

/-- What `interpret` writes to standard output, for every source and capacity:
the bytes after any number of steps of `interpret` are the current-cell values
at the executed `.` instructions, in execution order, followed by the text of
the fault report when (and only when) the run has stopped with stack
underflow; a step that executes no `.` and does not raise that fault appends
nothing.  The source `+++.>+.` on a tape of at least two cells returns after 8
steps having written exactly the bytes 3 and 1. -/
theorem output_is_dot_values (src : List Byte) (N n : Nat) (s : Machine)
    (hstep : (step src s).status ≠ .underflow) :
    (interpret src N n).out
      = dotValues src n (init N)
          ++ (if (interpret src N n).status = .underflow then underflowMessage else []) ∧
    (step src s).out = s.out ++ dotValue src s ∧
    (src[s.pos]? ≠ some 46 → (step src s).out = s.out) ∧
    (2 ≤ N → N ≤ PTRDIFF_MAX → ∀ k,
      (interpret [43, 43, 43, 46, 62, 43, 46] N (8 + k)).status = .returned ∧
      (interpret [43, 43, 43, 46, 62, 43, 46] N (8 + k)).out = [3, 1]) := by
  have hone : (step src s).out = s.out ++ dotValue src s := by
    rw [step_out src s]
    simp [hstep]
  refine ⟨?_, hone, ?_, ?_⟩
  · unfold interpret
    rw [run_out src n (init N)]
    have : (init N).status ≠ .underflow := by
      intro h; cases h
    simp [init]
  · intro hb
    rw [hone]
    simp [dotValue, hb]
  · intro h2 hmax k
    obtain ⟨M, rfl⟩ : ∃ M, N = M + 2 := ⟨N - 2, by omega⟩
    obtain ⟨mp, hmp⟩ := run_dots (List.replicate M 0) (List.replicate STACK_SIZE 0)
      (by simpa using hmax)
    have h8 : interpret [43, 43, 43, 46, 62, 43, 46] (M + 2) 8 = _ := hmp
    have hk : interpret [43, 43, 43, 46, 62, 43, 46] (M + 2) (8 + k)
        = interpret [43, 43, 43, 46, 62, 43, 46] (M + 2) 8 := by
      unfold interpret
      rw [run_add]
      exact run_finished k (by
        show (interpret [43, 43, 43, 46, 62, 43, 46] (M + 2) 8).status.finished = true
        rw [h8]; rfl)
    rw [hk, h8]
    exact ⟨rfl, rfl⟩

theorem output_is_dot_values_example :
    (interpret [43, 43, 43, 46, 62, 43, 46] 2 8).out
      = dotValues [43, 43, 43, 46, 62, 43, 46] 8 (init 2) ++ [] ∧
    (interpret [43, 43, 43, 46, 62, 43, 46] 2 (8 + 0)).out = [3, 1] :=
  have h := output_is_dot_values [43, 43, 43, 46, 62, 43, 46] 2 8 (init 2) (by decide)
  ⟨h.1, (h.2.2.2 (by decide) (by decide) 0).2⟩

/-- C9 (the code at the failing input): the source `]` executes no `.`
instruction, yet the run ends with the 16 bytes of `stack underflow` and a
newline on standard output: line 184 reports the fault with `printf`, on the
stream that carries the program's output, where the other error paths of the
program write to `stderr`. -/
theorem output_of_unmatched_close :
    dotValues [93] 1 (init 1) = [] ∧
    (interpret [93] 1 1).status = .underflow ∧
    (interpret [93] 1 1).out = underflowMessage ∧
    (interpret [93] 1 1).out ≠ dotValues [93] 1 (init 1) := by
  decide

/-! ## The copy idiom -/

theorem run_succ_last (src : List Byte) (n : Nat) (s : Machine) :
    run src (n + 1) s = step src (run src n s) := by
  rw [run_add]
  rfl

theorem copyIdiom_plus {n i : Nat} (h : i < n) : (copyIdiom n)[i]? = some 43 := by
  unfold copyIdiom
  rw [List.getElem?_append_left (by simpa using h)]
  simp [h]

theorem copyIdiom_body (n j : Nat) :
    (copyIdiom n)[n + j]? = ([91, 62, 43, 60, 45, 93] : List Byte)[j]? := by
  unfold copyIdiom
  rw [List.getElem?_append_right (by simp)]
  simp

/-- The `n` leading `+` of the copy idiom count cell 0 up to `n`. -/
theorem run_leading_plus (n : Nat) (rest stk : List Nat) (b : Nat) :
    ∀ i, i ≤ n → i ≤ 255 → ∃ mp : Int,
      run (copyIdiom n) i
          { MEMORY := 0 :: b :: rest, ptr := 0, max_ptr := 0, STACK := stk, SP := 0, pos := 0,
            out := [], status := .running }
        = { MEMORY := i :: b :: rest, ptr := 0, max_ptr := mp, STACK := stk, SP := 0, pos := i,
            out := [], status := .running } := by
  intro i
  induction i with
  | zero => intro _ _; exact ⟨0, rfl⟩
  | succ i ih =>
    intro hin hi
    obtain ⟨mp, h⟩ := ih (by omega) (by omega)
    rw [run_succ_last, h, step_plus (v := i) (by rfl) (copyIdiom_plus (by simpa using hin))
      (by simp)]
    simp only [List.set_cons_zero, Nat.mod_eq_of_lt (by omega : i + 1 < 256)]
    exact ⟨_, rfl⟩

/-- One turn of the loop `[>+<-]`: six steps from the `[` back to the `[`. -/
theorem run_copy_turn (n : Nat) (hn : n ≤ 255) (rest stk : List Nat) (a b : Nat) (mp : Int)
    (ha : a + 1 ≤ 255) (hb : b + 1 ≤ 255) (hstk : stk.length = STACK_SIZE)
    (hmax : rest.length + 2 ≤ PTRDIFF_MAX) :
    ∃ (mp1 : Int) (stk1 : List Nat), stk1.length = STACK_SIZE ∧
      run (copyIdiom n) 6
          { MEMORY := (a + 1) :: b :: rest, ptr := 0, max_ptr := mp, STACK := stk, SP := 0,
            pos := n, out := [], status := .running }
        = { MEMORY := a :: (b + 1) :: rest, ptr := 0, max_ptr := mp1, STACK := stk1, SP := 0,
            pos := n, out := [], status := .running } := by
  have hS : 0 < stk.length := by rw [hstk]; decide
  rw [run_succ, step_open_nonzero (v := a + 1) (by rfl) (copyIdiom_body n 0) (by simp)
    (by omega) (by show 0 < STACK_SIZE; decide)]
  simp only [Nat.mod_eq_of_lt (by omega : n + 1 < 65536), Nat.zero_add]
  rw [run_succ, step_gt (by rfl) ((copyIdiom_body n 1).trans rfl) (by simp)]
  simp only [Nat.add_assoc, Nat.reduceAdd]
  rw [moveRight_zero (by simp) (by simpa using hmax)]
  rw [run_succ, step_plus (v := b) (by rfl) ((copyIdiom_body n 2).trans rfl) (by simp)]
  simp only [List.set_cons_zero, List.set_cons_succ, Nat.add_assoc, Nat.reduceAdd,
    Nat.mod_eq_of_lt (by omega : b + 1 < 256)]
  rw [run_succ, step_lt (by rfl) ((copyIdiom_body n 3).trans rfl) (by simp)]
  simp only [Nat.add_assoc, Nat.reduceAdd]
  rw [moveLeft_one (by simpa using hmax)]
  rw [run_succ, step_minus (v := a + 1) (by rfl) ((copyIdiom_body n 4).trans rfl) (by simp)]
  simp only [List.set_cons_zero, Nat.add_assoc, Nat.reduceAdd,
    show (a + 256) % 256 = a by omega]
  rw [run_succ, step_close_pop (by rfl) ((copyIdiom_body n 5).trans rfl) (by simp)]
  simp only [Nat.add_assoc, Nat.reduceAdd, Nat.add_sub_cancel]
  have hget : (stk.set 0 (n + 1)).getD 0 0 = n + 1 := by
    rw [List.getD_eq_getElem?_getD, List.getElem?_set_self hS]
    rfl
  have hseek : fseek (n + 6) (((stk.set 0 (n + 1)).getD 0 0 : Nat) - 1) = n := by
    rw [hget]
    simp [fseek]
  rw [hseek]
  exact ⟨_, _, by simp [hstk], rfl⟩

/-- Leaving the loop `[>+<-]`: with cell 0 at `0` the `[` starts the scan, the
scan consumes `>+<-]`, and the next read finds the end of the source. -/
theorem run_copy_exit (n : Nat) (rest stk : List Nat) (b : Nat) (mp : Int) :
    ∃ mp1 : Int,
      run (copyIdiom n) 7
          { MEMORY := 0 :: b :: rest, ptr := 0, max_ptr := mp, STACK := stk, SP := 0,
            pos := n, out := [], status := .running }
        = { MEMORY := 0 :: b :: rest, ptr := 0, max_ptr := mp1, STACK := stk, SP := 0,
            pos := n + 6, out := [], status := .returned } := by
  have w62 : balance [(62 : Byte)] = 0 := by decide
  have w43 : balance [(43 : Byte)] = 0 := by decide
  have w60 : balance [(60 : Byte)] = 0 := by decide
  have w45 : balance [(45 : Byte)] = 0 := by decide
  have w93 : balance [(93 : Byte)] = -1 := by decide
  rw [run_succ, step_open_zero (by rfl) (copyIdiom_body n 0) (by simp)]
  simp only []
  rw [run_succ, step_skipping (c := 1) (b := 62) (by rfl) ((copyIdiom_body n 1).trans rfl), w62]
  simp only [Nat.add_assoc, Nat.reduceAdd, add_zero, ne_eq, one_ne_zero, not_false_eq_true,
    if_true]
  rw [run_succ, step_skipping (c := 1) (b := 43) (by rfl) ((copyIdiom_body n 2).trans rfl), w43]
  simp only [Nat.add_assoc, Nat.reduceAdd, add_zero, ne_eq, one_ne_zero, not_false_eq_true,
    if_true]
  rw [run_succ, step_skipping (c := 1) (b := 60) (by rfl) ((copyIdiom_body n 3).trans rfl), w60]
  simp only [Nat.add_assoc, Nat.reduceAdd, add_zero, ne_eq, one_ne_zero, not_false_eq_true,
    if_true]
  rw [run_succ, step_skipping (c := 1) (b := 45) (by rfl) ((copyIdiom_body n 4).trans rfl), w45]
  simp only [Nat.add_assoc, Nat.reduceAdd, add_zero, ne_eq, one_ne_zero, not_false_eq_true,
    if_true]
  rw [run_succ, step_skipping (c := 1) (b := 93) (by rfl) ((copyIdiom_body n 5).trans rfl), w93]
  simp only [Nat.add_assoc, Nat.reduceAdd, Int.reduceNeg, Int.reduceAdd, ne_eq,
    not_true_eq_false, if_false]
  rw [run_succ, step_eof (by rfl) ((copyIdiom_body n 6).trans rfl)]
  exact ⟨_, rfl⟩

/-- The whole loop: from the `[` with cell 0 at `a` and cell 1 at `b` the run
returns after `6 * a + 7` steps with cell 0 at `0` and cell 1 at `a + b`. -/
theorem run_copy_loop (n : Nat) (hn : n ≤ 255) (rest : List Nat)
    (hmax : rest.length + 2 ≤ PTRDIFF_MAX) :
    ∀ (a b : Nat) (mp : Int) (stk : List Nat), a + b ≤ 255 → stk.length = STACK_SIZE →
      ∃ (mp1 : Int) (stk1 : List Nat),
        run (copyIdiom n) (6 * a + 7)
            { MEMORY := a :: b :: rest, ptr := 0, max_ptr := mp, STACK := stk, SP := 0,
              pos := n, out := [], status := .running }
          = { MEMORY := 0 :: (a + b) :: rest, ptr := 0, max_ptr := mp1, STACK := stk1,
              SP := 0, pos := n + 6, out := [], status := .returned } := by
  intro a
  induction a with
  | zero =>
    intro b mp stk _ _
    obtain ⟨mp1, h⟩ := run_copy_exit n rest stk b mp
    exact ⟨mp1, stk, by simpa using h⟩
  | succ a ih =>
    intro b mp stk hab hstk
    obtain ⟨mp1, stk1, hstk1, hturn⟩ :=
      run_copy_turn n hn rest stk a b mp (by omega) (by omega) hstk hmax
    obtain ⟨mp2, stk2, hloop⟩ := ih (b + 1) mp1 stk1 (by omega) hstk1
    refine ⟨mp2, stk2, ?_⟩
    rw [show 6 * (a + 1) + 7 = 6 + (6 * a + 7) by ring, run_add, hturn, hloop,
      show a + (b + 1) = a + 1 + b by ring]

/-- C1: for every tape capacity `N ≥ 2` (a tape that `malloc` can return has
at most `PTRDIFF_MAX` cells) and every `n ≤ 255`, `interpret` on `n` characters
`+` followed by `[>+<-]` returns after `7 * n + 7` steps with cell 0 at `0`,
cell 1 at `n`, every other cell `0`, the pointer at `0`, an empty loop stack
and no output, and stays in that state; for `n = 3` the source is
`+++[>+<-]`. -/
theorem copy_idiom_moves_cell (N n : Nat) (hN : 2 ≤ N) (hmax : N ≤ PTRDIFF_MAX)
    (hn : n ≤ 255) :
    (interpret (copyIdiom n) N (7 * n + 7)).status = .returned ∧
    (interpret (copyIdiom n) N (7 * n + 7)).MEMORY = 0 :: n :: List.replicate (N - 2) 0 ∧
    (interpret (copyIdiom n) N (7 * n + 7)).ptr = 0 ∧
    (interpret (copyIdiom n) N (7 * n + 7)).SP = 0 ∧
    (interpret (copyIdiom n) N (7 * n + 7)).loopStack = [] ∧
    (interpret (copyIdiom n) N (7 * n + 7)).out = [] ∧
    (∀ k, interpret (copyIdiom n) N (7 * n + 7 + k) = interpret (copyIdiom n) N (7 * n + 7)) ∧
    copyIdiom 3 = [43, 43, 43, 91, 62, 43, 60, 45, 93] := by
  obtain ⟨M, rfl⟩ : ∃ M, N = M + 2 := ⟨N - 2, by omega⟩
  obtain ⟨mp, hpre⟩ := run_leading_plus n (List.replicate M 0) (List.replicate STACK_SIZE 0) 0
    n (le_refl n) hn
  obtain ⟨mp1, stk1, hloop⟩ := run_copy_loop n hn (List.replicate M 0) (by simpa using hmax)
    n 0 mp (List.replicate STACK_SIZE 0) (by omega) (by simp)
  have hfinal : interpret (copyIdiom n) (M + 2) (7 * n + 7)
      = { MEMORY := 0 :: n :: List.replicate M 0, ptr := 0, max_ptr := mp1, STACK := stk1,
          SP := 0, pos := n + 6, out := [], status := .returned } := by
    unfold interpret
    rw [show 7 * n + 7 = n + (6 * n + 7) by ring, run_add]
    have hinit : init (M + 2)
        = { MEMORY := 0 :: 0 :: List.replicate M 0, ptr := 0, max_ptr := 0,
            STACK := List.replicate STACK_SIZE 0, SP := 0, pos := 0, out := [],
            status := .running } := by
      simp [init, List.replicate_succ]
    rw [hinit, hpre, hloop, Nat.add_zero]
  refine ⟨by rw [hfinal], by rw [hfinal]; simp, by rw [hfinal], by rw [hfinal],
    by rw [hfinal]; simp [Machine.loopStack], by rw [hfinal], fun k => ?_, rfl⟩
  unfold interpret
  rw [run_add]
  exact run_finished k (by
    show (interpret (copyIdiom n) (M + 2) (7 * n + 7)).status.finished = true
    rw [hfinal]; rfl)

theorem copy_idiom_moves_cell_witness :
    (interpret [43, 43, 43, 91, 62, 43, 60, 45, 93] 2 28).status = .returned ∧
    (interpret [43, 43, 43, 91, 62, 43, 60, 45, 93] 2 28).MEMORY = [0, 3] :=
  have h := copy_idiom_moves_cell 2 3 (by decide) (by decide) (by decide)
  ⟨h.1, h.2.1⟩

/-! ## A loop beyond offset 65535 -/

/-- A stretch of bytes that are neither instructions nor `0xFF` only moves the
cursor (and updates `max_ptr`). -/
theorem run_other (src : List Byte) (b : Byte) (h255 : b.val ≠ 255)
    (h60 : b.val ≠ 60) (h62 : b.val ≠ 62) (h43 : b.val ≠ 43) (h45 : b.val ≠ 45)
    (h46 : b.val ≠ 46) (h91 : b.val ≠ 91) (h93 : b.val ≠ 93) (s : Machine)
    (hrun : s.status = .running) :
    ∀ n, (∀ i < n, src[s.pos + i]? = some b) →
      ∃ mp : Int, run src n s = { s with pos := s.pos + n, max_ptr := mp } := by
  intro n
  induction n with
  | zero => intro _; exact ⟨s.max_ptr, rfl⟩
  | succ n ih =>
    intro hsrc
    obtain ⟨mp, h⟩ := ih (fun i hi => hsrc i (by omega))
    rw [run_succ_last, h,
      step_other (b := b) (by exact hrun) (by exact hsrc n (by omega)) h255 h60 h62 h43 h45
        h46 h91 h93]
    exact ⟨_, rfl⟩

theorem farLoop_blank {i : Nat} (h : i < 65535) : farLoop[1 + i]? = some 32 := by
  unfold farLoop
  rw [Nat.add_comm, List.getElem?_cons_succ,
    List.getElem?_append_left (by rw [List.length_replicate]; exact h),
    List.getElem?_replicate, if_pos h]

theorem farLoop_body (j : Nat) :
    farLoop[65536 + j]? = ([91, 45, 93] : List Byte)[j]? := by
  unfold farLoop
  rw [show 65536 + j = (65535 + j) + 1 by omega, List.getElem?_cons_succ,
    List.getElem?_append_right (by rw [List.length_replicate]; omega),
    List.length_replicate, Nat.add_sub_cancel_left]

theorem farLoop_first : farLoop[0]? = some 43 := by
  unfold farLoop
  exact List.getElem?_cons_zero

theorem farLoop_open : farLoop[65536]? = some 91 := by
  rw [show (65536 : Nat) = 65536 + 0 from rfl, farLoop_body]
  rfl

theorem farLoop_minus : farLoop[65537]? = some 45 := by
  rw [show (65537 : Nat) = 65536 + 1 from rfl, farLoop_body]
  rfl

theorem farLoop_close : farLoop[65538]? = some 93 := by
  rw [show (65538 : Nat) = 65536 + 2 from rfl, farLoop_body]
  rfl

theorem updateMax_ptr_zero {s : Machine} (h : s.ptr = 0) : updateMax s = s.max_ptr := by
  simp [updateMax, h]

/-- The first 65536 steps on `farLoop`: the `+` and the 65535 blanks. -/
theorem farLoop_lead : run farLoop 65536 (init 1)
      = { MEMORY := [1], ptr := 0, max_ptr := 0, STACK := List.replicate STACK_SIZE 0,
          SP := 0, pos := 65536, out := [], status := .running } := by
  have h1 : run farLoop 1 (init 1)
      = { MEMORY := [1], ptr := 0, max_ptr := 0,
          STACK := List.replicate STACK_SIZE 0, SP := 0, pos := 1, out := [],
          status := .running } := by
    rw [run_succ, run_zero, step_plus (s := init 1) (v := 0) rfl farLoop_first rfl,
      updateMax_ptr_zero rfl]
    rfl
  have h2 : ∀ n, n ≤ 65535 → run farLoop n
      { MEMORY := [1], ptr := 0, max_ptr := 0,
        STACK := List.replicate STACK_SIZE 0, SP := 0, pos := 1, out := [],
        status := .running }
      = { MEMORY := [1], ptr := 0, max_ptr := 0,
          STACK := List.replicate STACK_SIZE 0, SP := 0, pos := 1 + n, out := [],
          status := .running } := by
    intro n
    induction n with
    | zero => intro _; rfl
    | succ n ih =>
      intro hn
      rw [run_succ_last, ih (by omega),
        step_other (s := ⟨[1], 0, 0, List.replicate STACK_SIZE 0, 0, 1 + n, [], .running⟩)
          (b := 32) rfl (farLoop_blank (by omega)) (by decide) (by decide)
          (by decide) (by decide) (by decide) (by decide) (by decide) (by decide),
        updateMax_ptr_zero rfl]
      rfl
  rw [show (65536 : Nat) = 1 + 65535 from rfl, run_add, h1, h2 65535 (le_refl _)]

theorem farLoop_step_open (stk : List Nat) :
    step farLoop { MEMORY := [1], ptr := 0, max_ptr := 0, STACK := stk,
                   SP := 0, pos := 65536, out := [], status := .running }
      = { MEMORY := [1], ptr := 0, max_ptr := 0, STACK := stk.set 0 1,
          SP := 1, pos := 65537, out := [], status := .running } := by
  rw [step_open_nonzero (s := ⟨[1], 0, 0, stk, 0, 65536, [], .running⟩) (v := 1) rfl
    farLoop_open rfl (by decide) (by show 0 < STACK_SIZE; decide), updateMax_ptr_zero rfl]
  have e : ((65536 : Nat) + 1) % 65536 = 1 := by decide
  show Machine.mk [1] 0 0 (stk.set 0 ((65536 + 1) % 65536)) (0 + 1) (65536 + 1) [] .running = _
  rw [e]

theorem farLoop_step_minus (stk : List Nat) :
    step farLoop { MEMORY := [1], ptr := 0, max_ptr := 0, STACK := stk.set 0 1,
                   SP := 1, pos := 65537, out := [], status := .running }
      = { MEMORY := [0], ptr := 0, max_ptr := 0, STACK := stk.set 0 1,
          SP := 1, pos := 65538, out := [], status := .running } := by
  rw [step_minus (s := ⟨[1], 0, 0, stk.set 0 1, 1, 65537, [], .running⟩) (v := 1) rfl
    farLoop_minus rfl, updateMax_ptr_zero rfl]
  rfl

theorem farLoop_step_close (stk : List Nat) (hS : 0 < stk.length) :
    step farLoop { MEMORY := [0], ptr := 0, max_ptr := 0, STACK := stk.set 0 1,
                   SP := 1, pos := 65538, out := [], status := .running }
      = { MEMORY := [0], ptr := 0, max_ptr := 0, STACK := stk.set 0 1,
          SP := 0, pos := 0, out := [], status := .running } := by
  rw [step_close_pop (s := ⟨[0], 0, 0, stk.set 0 1, 1, 65538, [], .running⟩) rfl
    farLoop_close (by show (1 : Nat) ≠ 0; decide), updateMax_ptr_zero rfl]
  have hget : (stk.set 0 1).getD 0 0 = 1 := by
    rw [List.getD_eq_getElem?_getD, List.getElem?_set_self hS]
    rfl
  simp only [Nat.reduceAdd, Nat.add_sub_cancel, hget]
  have hseek : fseek 65539 (((1 : Nat) : Int) - 1) = 0 := by decide
  rw [hseek]

/-- C3 (the code at the failing input): on the source `farLoop` the `[` at
offset `k = 65536` is executed with cell 0 at `1`, and the position stored on
the loop stack is `(k + 1) mod 65536 = 1`, not `k + 1 = 65537`, because the
entries of `STACK` are `unsigned short`.  When the matching `]` at offset 65538
is executed with that entry on top, the stack is popped and the source cursor
is set to `0`, not to `k`: the next character read is the `+` at the start of
the file, not the `[`. -/
theorem loop_return_truncated :
    farLoop[65536]? = some 91 ∧ farLoop[65538]? = some 93 ∧
    (interpret farLoop 1 65536).status = .running ∧
    (interpret farLoop 1 65536).pos = 65536 ∧
    (interpret farLoop 1 65536).MEMORY = [1] ∧
    (interpret farLoop 1 65537).loopStack = [1] ∧
    (interpret farLoop 1 65538).status = .running ∧
    (interpret farLoop 1 65538).pos = 65538 ∧
    (interpret farLoop 1 65538).loopStack = [1] ∧
    (interpret farLoop 1 65539).SP = 0 ∧
    (interpret farLoop 1 65539).pos = 0 ∧
    farLoop[(interpret farLoop 1 65539).pos]? = some 43 := by
  have hS : 0 < (List.replicate STACK_SIZE 0).length := by
    rw [List.length_replicate]; decide
  have e36 : interpret farLoop 1 65536 = _ := farLoop_lead
  have e37 : interpret farLoop 1 65537
      = { MEMORY := [1], ptr := 0, max_ptr := 0, STACK := (List.replicate STACK_SIZE 0).set 0 1,
          SP := 1, pos := 65537, out := [], status := .running } := by
    unfold interpret
    rw [show (65537 : Nat) = 65536 + 1 from rfl, run_succ_last, farLoop_lead,
      farLoop_step_open]
  have e38 : interpret farLoop 1 65538
      = { MEMORY := [0], ptr := 0, max_ptr := 0, STACK := (List.replicate STACK_SIZE 0).set 0 1,
          SP := 1, pos := 65538, out := [], status := .running } := by
    have h := run_succ_last farLoop 65537 (init 1)
    rw [show run farLoop 65537 (init 1) = interpret farLoop 1 65537 from rfl, e37,
      farLoop_step_minus] at h
    exact h
  have e39 : interpret farLoop 1 65539
      = { MEMORY := [0], ptr := 0, max_ptr := 0, STACK := (List.replicate STACK_SIZE 0).set 0 1,
          SP := 0, pos := 0, out := [], status := .running } := by
    have h := run_succ_last farLoop 65538 (init 1)
    rw [show run farLoop 65538 (init 1) = interpret farLoop 1 65538 from rfl, e38,
      farLoop_step_close _ hS] at h
    exact h
  have htake : ((List.replicate STACK_SIZE 0).set 0 1).take 1 = [1] := by
    rw [List.take_one]
    simp [List.head?_eq_getElem?, List.getElem?_set_self hS]
  refine ⟨farLoop_open, farLoop_close, by rw [e36], by rw [e36], by rw [e36],
    by rw [e37]; exact htake, by rw [e38], by rw [e38], by rw [e38]; exact htake,
    by rw [e39], by rw [e39], by rw [e39]; exact farLoop_first⟩

/-! ## The data pointer stays inside the tape -/

theorem moveLeft_lt (p : Nat) {N : Nat} (hN : 0 < N) : moveLeft p N < N := by
  unfold moveLeft
  exact lt_of_le_of_lt (Nat.mod_le _ _) (Nat.mod_lt _ hN)

theorem moveRight_lt (p : Nat) {N : Nat} (hN : 0 < N) : moveRight p N < N := by
  unfold moveRight
  exact lt_of_le_of_lt (Nat.mod_le _ _) (Nat.mod_lt _ hN)

theorem dispatch_tapeOk (ch : Int) {N : Nat} {s : Machine} (h : TapeOk N s) :
    TapeOk N (dispatch ch s) := by
  obtain ⟨hlen, hp, h1, h2⟩ := h
  have hN : 0 < N := by omega
  have hmem : s.memory_size ≠ 0 := by unfold Machine.memory_size; omega
  have hv : s.MEMORY[s.ptr]? = some s.MEMORY[s.ptr] := List.getElem?_eq_getElem (by omega)
  by_cases h60 : ch = 60
  · subst h60
    simp only [dispatch, if_true, if_neg hmem]
    exact ⟨hlen, by simpa [Machine.memory_size, hlen] using moveLeft_lt s.ptr hN, h1, h2⟩
  by_cases h62 : ch = 62
  · subst h62
    simp [dispatch, hmem]
    exact ⟨hlen, by simpa [Machine.memory_size, hlen] using moveRight_lt s.ptr hN, h1, h2⟩
  by_cases h43 : ch = 43
  · subst h43
    simp [dispatch, hv]
    exact ⟨by simpa using hlen, hp, h1, h2⟩
  by_cases h45 : ch = 45
  · subst h45
    simp [dispatch, hv]
    exact ⟨by simpa using hlen, hp, h1, h2⟩
  by_cases h46 : ch = 46
  · subst h46
    simp [dispatch, hv]
    exact ⟨hlen, hp, h1, h2⟩
  by_cases h91 : ch = 91
  · subst h91
    by_cases hv0 : s.MEMORY[s.ptr] = 0
    · simp [dispatch, hv, hv0]
      exact ⟨hlen, hp, by simp, by simp⟩
    · by_cases hSP : s.SP < STACK_SIZE
      · simp [dispatch, hv, hv0, hSP]
        exact ⟨hlen, hp, h1, h2⟩
      · simp [dispatch, hv, hv0, hSP]
        exact ⟨hlen, hp, by simp, by simp⟩
  by_cases h93 : ch = 93
  · subst h93
    by_cases hSP : s.SP = 0
    · simp [dispatch, hSP]
      exact ⟨hlen, hp, by simp, by simp⟩
    · simp [dispatch, hSP]
      exact ⟨hlen, hp, h1, h2⟩
  simp [dispatch, h60, h62, h43, h45, h46, h91, h93]
  exact ⟨hlen, hp, h1, h2⟩

theorem step_tapeOk (src : List Byte) {N : Nat} {s : Machine} (h : TapeOk N s) :
    TapeOk N (step src s) := by
  obtain ⟨hlen, hp, h1, h2⟩ := h
  rcases hs : s.status with _ | c | _ | _ | _ | _ | _
  · rcases hb : src[s.pos]? with _ | b
    · rw [step_eof hs hb]
      exact ⟨hlen, hp, by simp, by simp⟩
    · by_cases h255 : b.val = 255
      · have hb2 : src[s.pos]? = some 255 := by rw [hb, ← Fin.ext (a := b) (b := 255) h255]
        rw [step_byte_ff hs hb2]
        exact ⟨hlen, hp, by simp, by simp⟩
      · rw [step_running hs hb h255]
        exact dispatch_tapeOk _ ⟨hlen, hp, h1, h2⟩
  · have e : step src s = stepSkipping src c s := by simp [step, hs]
    rw [e]
    refine ⟨hlen, hp, ?_, ?_⟩ <;>
    · simp only [stepSkipping]
      split_ifs <;> simp
  all_goals
    rw [step_finished (by rw [hs]; rfl)]
    exact ⟨hlen, hp, h1, h2⟩

theorem run_tapeOk (src : List Byte) {N : Nat} (n : Nat) {s : Machine} (h : TapeOk N s) :
    TapeOk N (run src n s) := by
  induction n generalizing s with
  | zero => exact h
  | succ n ih => exact ih (step_tapeOk src h)

theorem init_tapeOk {N : Nat} (hN : 1 ≤ N) : TapeOk N (init N) :=
  ⟨by simp [init], by show 0 < N; omega, by simp [init], by simp [init]⟩

/-- C11: for every tape capacity `N ≥ 1` and every source, after any number of
steps from the initial state the data pointer is below `N`, the tape still has
`N` cells, the current cell exists, and no tape access has left the tape (the
run is never in the state of an out-of-range access or of a remainder by a
zero `memory_size`). -/
theorem pointer_stays_in_tape (src : List Byte) (N n : Nat) (hN : 1 ≤ N) :
    (interpret src N n).ptr < N ∧
    (interpret src N n).MEMORY.length = N ∧
    (∃ v, (interpret src N n).MEMORY[(interpret src N n).ptr]? = some v) ∧
    (interpret src N n).status ≠ .tapeOutOfBounds ∧
    (interpret src N n).status ≠ .divByZero := by
  have h : TapeOk N (interpret src N n) := run_tapeOk src n (init_tapeOk hN)
  obtain ⟨hlen, hp, h1, h2⟩ := h
  exact ⟨hp, hlen, ⟨_, List.getElem?_eq_getElem (by rw [hlen]; exact hp)⟩, h1, h2⟩

theorem pointer_stays_in_tape_witness :
    (interpret [60, 60, 43, 46] 10 3).ptr < 10 ∧
    (interpret [60, 60, 43, 46] 10 3).MEMORY.length = 10 :=
  have h := pointer_stays_in_tape [60, 60, 43, 46] 10 3 (by decide)
  ⟨h.1, h.2.1⟩

/-! ## The end of the source -/

theorem run_open_plus (rest stk : List Nat) :
    run [43, 91, 43] 4
        { MEMORY := 0 :: rest, ptr := 0, max_ptr := 0, STACK := stk, SP := 0, pos := 0,
          out := [], status := .running }
      = { MEMORY := 2 :: rest, ptr := 0, max_ptr := 0, STACK := stk.set 0 2, SP := 1,
          pos := 3, out := [], status := .returned } := by
  rw [run_succ, step_plus (s := ⟨0 :: rest, 0, 0, stk, 0, 0, [], .running⟩) (v := 0) rfl rfl
    (by simp), updateMax_ptr_zero rfl]
  simp only [List.set_cons_zero, Nat.reduceAdd, Nat.reduceMod]
  rw [run_succ, step_open_nonzero (s := ⟨1 :: rest, 0, 0, stk, 0, 1, [], .running⟩) (v := 1)
    rfl rfl (by simp) (by decide) (by show 0 < STACK_SIZE; decide), updateMax_ptr_zero rfl]
  simp only [Nat.reduceAdd, Nat.reduceMod]
  rw [run_succ, step_plus (s := ⟨1 :: rest, 0, 0, stk.set 0 2, 1, 2, [], .running⟩) (v := 1)
    rfl rfl (by simp), updateMax_ptr_zero rfl]
  simp only [List.set_cons_zero, Nat.reduceAdd, Nat.reduceMod]
  rw [run_succ, step_eof (s := ⟨2 :: rest, 0, 0, stk.set 0 2, 1, 3, [], .running⟩) rfl rfl]
  rfl

/-- C12: whenever the main loop reads at or past the end of the source, the
step ends the run normally: only the status changes (to `returned`), nothing
is written to standard output, no fault is raised, and every later step leaves
the state as it is, whatever the value of `SP`.  The source `+[+` on any tape
of at least one cell returns after 4 steps with cell 0 at `2`, the other cells
`0`, one entry left on the loop stack and no output. -/
theorem end_of_source_halts (src : List Byte) (s : Machine)
    (hrun : s.status = .running) (hend : src.length ≤ s.pos) :
    step src s = { s with status := .returned } ∧
    (∀ n, run src n (step src s) = step src s) ∧
    (step src s).SP = s.SP ∧ (step src s).out = s.out ∧
    ∀ N k, 1 ≤ N →
      (interpret [43, 91, 43] N (4 + k)).status = .returned ∧
      (interpret [43, 91, 43] N (4 + k)).MEMORY = 2 :: List.replicate (N - 1) 0 ∧
      (interpret [43, 91, 43] N (4 + k)).SP = 1 ∧
      (interpret [43, 91, 43] N (4 + k)).loopStack = [2] ∧
      (interpret [43, 91, 43] N (4 + k)).out = [] := by
  have h := step_eof hrun (List.getElem?_eq_none hend)
  refine ⟨h, fun n => run_finished n (by rw [h]; rfl), by rw [h], by rw [h], ?_⟩
  intro N k hN
  obtain ⟨M, rfl⟩ : ∃ M, N = M + 1 := ⟨N - 1, by omega⟩
  have hS : 0 < (List.replicate STACK_SIZE 0).length := by
    rw [List.length_replicate]; decide
  have h4 : interpret [43, 91, 43] (M + 1) 4 = _ :=
    run_open_plus (List.replicate M 0) (List.replicate STACK_SIZE 0)
  have hk : interpret [43, 91, 43] (M + 1) (4 + k) = interpret [43, 91, 43] (M + 1) 4 := by
    unfold interpret
    rw [run_add]
    exact run_finished k (by
      show (interpret [43, 91, 43] (M + 1) 4).status.finished = true
      rw [h4]; rfl)
  rw [hk, h4]
  refine ⟨rfl, by simp, rfl, ?_, rfl⟩
  show ((List.replicate STACK_SIZE 0).set 0 2).take 1 = [2]
  rw [List.take_one]
  simp [List.head?_eq_getElem?, List.getElem?_set_self hS]

theorem end_of_source_halts_witness :
    (step [43, 91, 43] (interpret [43, 91, 43] 1 3)).status = .returned ∧
    (step [43, 91, 43] (interpret [43, 91, 43] 1 3)).SP = 1 ∧
    (interpret [43, 91, 43] 1 (4 + 0)).MEMORY = [2] :=
  have h := end_of_source_halts [43, 91, 43] (interpret [43, 91, 43] 1 3) (by decide)
    (by decide)
  ⟨(congrArg Machine.status h.1).trans rfl, h.2.2.1.trans (by decide),
    (h.2.2.2.2 1 0 (by decide)).2.1⟩

/-! ## The high-water mark -/

/-- C15 (the code at the failing input): on the source `>` and a tape of two
cells `interpret` returns with the pointer at `1` and `max_ptr` still `0`.
The mark is updated at the top of the loop body, before the instruction is
executed and only when a further character is read, so the pointer value
reached by the last instruction is never recorded. -/
theorem high_water_mark_lags :
    (interpret [62] 2 2).status = .returned ∧
    (interpret [62] 2 2).ptr = 1 ∧
    (interpret [62] 2 2).max_ptr = 0 ∧
    (∀ k, (interpret [62] 2 (2 + k)).max_ptr = 0 ∧ (interpret [62] 2 (2 + k)).ptr = 1) := by
  refine ⟨by decide, by decide, by decide, fun k => ?_⟩
  have hk : interpret [62] 2 (2 + k) = interpret [62] 2 2 := by
    unfold interpret
    rw [run_add]
    exact run_finished k (by decide)
  rw [hk]
  exact ⟨by decide, by decide⟩

/-! ## Command-line options -/

/-- C16 (the code at the failing input): `argparse` does not take a value for
`-d` / `--dump`.  The option only sets the flag `dump`; the format word that
follows is then read as an option of its own and rejected with `invalid
option`, the usage text and `exit(1)`, for each of `none`, `hex` and `ascii`.
The configuration has no field for a dump format. -/
theorem dump_option_rejects_format (strtoul : String → Nat) (c : Config) :
    argparse strtoul ["-d", "none"] c = .invalidOption "none" ∧
    argparse strtoul ["-d", "hex"] c = .invalidOption "hex" ∧
    argparse strtoul ["-d", "ascii"] c = .invalidOption "ascii" ∧
    argparse strtoul ["--dump", "none"] c = .invalidOption "none" ∧
    argparse strtoul ["--dump", "hex"] c = .invalidOption "hex" ∧
    argparse strtoul ["--dump", "ascii"] c = .invalidOption "ascii" ∧
    argparse strtoul ["-d"] c = .parsed { c with dump := true } := by
  refine ⟨?_, ?_, ?_, ?_, ?_, ?_, ?_⟩ <;> simp [argparse]

/-! ## The memory dump -/

theorem flatten_map_length {α : Type} (f : α → List Nat) (c : Nat)
    (h : ∀ x, (f x).length = c) (l : List α) : ((l.map f).flatten).length = c * l.length := by
  induction l with
  | nil => rfl
  | cons a l ih =>
    rw [List.map_cons, List.flatten_cons, List.length_append, h, ih, List.length_cons]
    ring

theorem hexCell_length (v : Nat) : (hexCell v).length = 3 := by
  unfold hexCell
  split <;> rfl

theorem asciiCell_length (v : Nat) : (asciiCell v).length = 3 := by
  unfold asciiCell
  split_ifs <;> rfl

theorem dumpCells_length (mem : List Nat) (beyond : Nat → Nat) (i : Nat) :
    (dumpCells mem beyond i).length = 16 := by
  simp [dumpCells]

/-- Every row of the dump has 98 bytes: 16 hexadecimal fields of three bytes, a
tab, 16 character fields of three bytes and a newline. -/
theorem dumpRow_length (mem : List Nat) (beyond : Nat → Nat) (i : Nat) :
    (dumpRow mem beyond i).length = 98 := by
  unfold dumpRow
  simp only [List.length_append, flatten_map_length hexCell 3 hexCell_length,
    flatten_map_length asciiCell 3 asciiCell_length, dumpCells_length, List.length_singleton]

/-- The dump after the source `+>>` on a tape of 10 cells is one row; its
first 10 values are the tape and the last 6 are read after the end of the
tape (the inner loops have no bound check). -/
theorem dump_row_reads_on (beyond : Nat → Nat) :
    (interpret [43, 62, 62] 10 4).max_ptr = 1 ∧
    dumpText beyond (interpret [43, 62, 62] 10 4)
      = dumpRow [1, 0, 0, 0, 0, 0, 0, 0, 0, 0] beyond 0 ∧
    dumpCells [1, 0, 0, 0, 0, 0, 0, 0, 0, 0] beyond 0
      = [1, 0, 0, 0, 0, 0, 0, 0, 0, 0, beyond 10 % 256, beyond 11 % 256, beyond 12 % 256,
          beyond 13 % 256, beyond 14 % 256, beyond 15 % 256] := by
  have hm : (interpret [43, 62, 62] 10 4).MEMORY = [1, 0, 0, 0, 0, 0, 0, 0, 0, 0] := by decide
  have hp : (interpret [43, 62, 62] 10 4).max_ptr = 1 := by decide
  refine ⟨hp, ?_, rfl⟩
  unfold dumpText Machine.memory_size
  rw [hm, hp]
  simp [dumpLoop]

/-- The text of that dump when the bytes after the tape are zero: ` 1 ` and 15
times ` 0 `, a tab, 16 times ` . ` and a newline. -/
theorem dump_text_after_plus :
    dumpText (fun _ => 0) (interpret [43, 62, 62] 10 4)
      = [32, 49, 32] ++ (List.replicate 15 [32, 48, 32]).flatten ++ [9] ++
          (List.replicate 16 [32, 46, 32]).flatten ++ [10] := by
  decide

/-- C17: `dump_mem` is read-only and idempotent.  In every state, and whatever
bytes lie after the tape, `dump_mem` leaves the tape, the data pointer and the
high-water mark (and the loop stack, `SP`, the cursor and the status) as they
are: all it does is append the dump text to standard output.  A second call
in succession therefore finds the same tape and prints the same text again. -/
theorem dump_is_read_only_and_idempotent (beyond : Nat → Nat) (s : Machine) :
    (dump_mem beyond s).MEMORY = s.MEMORY ∧
    (dump_mem beyond s).ptr = s.ptr ∧
    (dump_mem beyond s).max_ptr = s.max_ptr ∧
    (dump_mem beyond s).STACK = s.STACK ∧
    (dump_mem beyond s).SP = s.SP ∧
    (dump_mem beyond s).pos = s.pos ∧
    (dump_mem beyond s).status = s.status ∧
    (dump_mem beyond s).out = s.out ++ dumpText beyond s ∧
    dumpText beyond (dump_mem beyond s) = dumpText beyond s ∧
    (dump_mem beyond (dump_mem beyond s)).MEMORY = s.MEMORY ∧
    (dump_mem beyond (dump_mem beyond s)).ptr = s.ptr ∧
    (dump_mem beyond (dump_mem beyond s)).max_ptr = s.max_ptr ∧
    (dump_mem beyond (dump_mem beyond s)).out
      = s.out ++ dumpText beyond s ++ dumpText beyond s := by
  have htext : dumpText beyond (dump_mem beyond s) = dumpText beyond s := rfl
  refine ⟨rfl, rfl, rfl, rfl, rfl, rfl, rfl, rfl, htext, rfl, rfl, rfl, ?_⟩
  show (dump_mem beyond s).out ++ dumpText beyond (dump_mem beyond s) = _
  rw [htext]
  rfl

/-! ## Comments -/

/-- C20 (the code at the failing input): the source `0xFF +` and the same
source without its comment byte, `+`, both return normally, but the first
leaves cell 0 at `0` (the run ends at the byte `0xFF`) and the second leaves it
at `1`. -/
theorem comment_byte_ff_changes_result :
    stripComments [255, 43] = [43] ∧
    (interpret [255, 43] 1 2).status = .returned ∧
    (interpret (stripComments [255, 43]) 1 2).status = .returned ∧
    (interpret [255, 43] 1 2).MEMORY = [0] ∧
    (interpret (stripComments [255, 43]) 1 2).MEMORY = [1] := by
  decide

/-! ## The loop stack at capacity -/

theorem step_open_overflow {src : List Byte} {s : Machine} {v : Nat}
    (hrun : s.status = .running) (hb : src[s.pos]? = some 91)
    (hv : s.MEMORY[s.ptr]? = some v) (hv0 : v ≠ 0) (hSP : ¬ s.SP < STACK_SIZE) :
    step src s = { s with status := .stackOutOfBounds, pos := s.pos + 1,
                          max_ptr := updateMax s } := by
  rw [step_running hrun hb (by decide), toChar_open]
  simp [dispatch, hv, hv0, hSP]

theorem deepNest_open {i : Nat} (h : i < 513) : deepNest[1 + i]? = some 91 := by
  unfold deepNest
  rw [Nat.add_comm, List.getElem?_cons_succ, List.getElem?_replicate, if_pos h]

theorem deepNest_first : deepNest[0]? = some 43 := by
  unfold deepNest
  exact List.getElem?_cons_zero

/-- The first `1 + i` steps on `deepNest`: the `+` and `i` pushes. -/
theorem deepNest_pushes : ∀ i, i ≤ 512 → ∃ stk : List Nat, stk.length = STACK_SIZE ∧
    run deepNest (1 + i) (init 1)
      = { MEMORY := [1], ptr := 0, max_ptr := 0, STACK := stk, SP := i, pos := 1 + i,
          out := [], status := .running } := by
  intro i
  induction i with
  | zero =>
    intro _
    refine ⟨List.replicate STACK_SIZE 0, List.length_replicate _ _, ?_⟩
    rw [run_succ, run_zero, step_plus (s := init 1) (v := 0) rfl deepNest_first rfl,
      updateMax_ptr_zero rfl]
    rfl
  | succ i ih =>
    intro hi
    obtain ⟨stk, hlen, h⟩ := ih (by omega)
    refine ⟨stk.set i ((1 + i + 1) % 65536), by simpa using hlen, ?_⟩
    rw [show 1 + (i + 1) = (1 + i) + 1 from rfl, run_succ_last, h,
      step_open_nonzero (s := ⟨[1], 0, 0, stk, i, 1 + i, [], .running⟩) (v := 1) rfl
        (deepNest_open (by omega)) rfl (by decide) (by show i < STACK_SIZE; unfold STACK_SIZE; omega),
      updateMax_ptr_zero rfl]

/-- C13 (the code at the failing input): on the source `deepNest` (`+` and 513
characters `[`) the first 513 steps leave `SP = 512 = STACK_SIZE` with the run
still going, and the next `[` is executed with a non-zero cell: line 171
stores at `STACK[512]`, one past the end of the array.  The source has no
capacity check, nothing is reported on standard output, and the C program has
no defined behaviour from here on. -/
theorem stack_overflow_unchecked :
    (interpret deepNest 1 513).status = .running ∧
    (interpret deepNest 1 513).SP = STACK_SIZE ∧
    (interpret deepNest 1 513).STACK.length = STACK_SIZE ∧
    (interpret deepNest 1 513).MEMORY = [1] ∧
    deepNest[(interpret deepNest 1 513).pos]? = some 91 ∧
    (interpret deepNest 1 514).status = .stackOutOfBounds ∧
    (interpret deepNest 1 514).SP = STACK_SIZE ∧
    (interpret deepNest 1 514).out = [] := by
  obtain ⟨stk, hlen, h⟩ := deepNest_pushes 512 (le_refl _)
  have e513 : interpret deepNest 1 513
      = { MEMORY := [1], ptr := 0, max_ptr := 0, STACK := stk, SP := 512, pos := 513,
          out := [], status := .running } := h
  have e514 : interpret deepNest 1 514
      = { MEMORY := [1], ptr := 0, max_ptr := 0, STACK := stk, SP := 512, pos := 514,
          out := [], status := .stackOutOfBounds } := by
    have h1 := run_succ_last deepNest 513 (init 1)
    rw [show run deepNest 513 (init 1) = interpret deepNest 1 513 from rfl, e513,
      step_open_overflow (s := ⟨[1], 0, 0, stk, 512, 513, [], .running⟩) (v := 1) rfl
        (deepNest_open (i := 512) (by decide)) rfl (by decide)
        (by show ¬ 512 < STACK_SIZE; decide), updateMax_ptr_zero rfl] at h1
    exact h1
  refine ⟨by rw [e513], by rw [e513]; rfl, by rw [e513]; exact hlen, by rw [e513],
    by rw [e513]; exact deepNest_open (i := 512) (by decide), by rw [e514],
    by rw [e514]; rfl, by rw [e514]⟩

/-! ## The open brackets at a source offset -/

theorem opens_zero (src : List Byte) : opens src 0 = [] := rfl

theorem opens_succ_open {src : List Byte} {p : Nat} (h : src[p]? = some 91) :
    opens src (p + 1) = opens src p ++ [p] := by
  simp [opens, h]

theorem opens_succ_close {src : List Byte} {p : Nat} (h : src[p]? = some 93) :
    opens src (p + 1) = (opens src p).dropLast := by
  simp [opens, h]

theorem opens_succ_other {src : List Byte} {p : Nat} {b : Byte} (h : src[p]? = some b)
    (h91 : b ≠ 91) (h93 : b ≠ 93) : opens src (p + 1) = opens src p := by
  simp [opens, h, h91, h93]

theorem opens_succ_none {src : List Byte} {p : Nat} (h : src[p]? = none) :
    opens src (p + 1) = opens src p := by
  simp [opens, h]

theorem opens_of_length_le (src : List Byte) :
    ∀ p, src.length ≤ p → opens src p = opens src src.length := by
  intro p hp
  induction p with
  | zero =>
    have : src.length = 0 := by omega
    rw [this]
  | succ p ih =>
    rcases Nat.lt_or_ge p src.length with h | h
    · have : src.length = p + 1 := by omega
      rw [this]
    · rw [opens_succ_none (List.getElem?_eq_none h), ih h]

theorem balance_nil : balance [] = 0 := rfl

theorem balance_append (l1 l2 : List Byte) :
    balance (l1 ++ l2) = balance l1 + balance l2 := by
  unfold balance
  simp only [List.count_append]
  push_cast
  ring

theorem balance_open : balance [(91 : Byte)] = 1 := by decide

theorem balance_close : balance [(93 : Byte)] = -1 := by decide

theorem balance_other {b : Byte} (h91 : b ≠ 91) (h93 : b ≠ 93) : balance [b] = 0 := by
  have h1 : ¬ (91 : Byte) = b := fun h => h91 h.symm
  have h2 : ¬ (93 : Byte) = b := fun h => h93 h.symm
  simp [balance, List.count_cons, h91, h93, h1, h2]

theorem take_succ_of_getElem? {src : List Byte} {p : Nat} {b : Byte} (h : src[p]? = some b) :
    src.take (p + 1) = src.take p ++ [b] := by
  rw [List.take_succ, h]
  rfl

theorem balance_take_succ {src : List Byte} {p : Nat} {b : Byte} (h : src[p]? = some b) :
    balance (src.take (p + 1)) = balance (src.take p) + balance [b] := by
  rw [take_succ_of_getElem? h, balance_append]

/-- On a source in which no prefix closes more than it opens, the number
of open brackets at an offset is the bracket balance of the prefix. -/
theorem length_opens {src : List Byte} (hpre : ∀ p ≤ src.length, 0 ≤ balance (src.take p)) :
    ∀ p, ((opens src p).length : Int) = balance (src.take p) := by
  have hle : ∀ p, p ≤ src.length → ((opens src p).length : Int) = balance (src.take p) := by
    intro p
    induction p with
    | zero => intro _; simp [opens, balance_nil]
    | succ p ih =>
      intro hp
      have ihp := ih (by omega)
      have hlt : p < src.length := by omega
      have hb : src[p]? = some src[p] := List.getElem?_eq_getElem hlt
      have hnn := hpre (p + 1) hp
      rw [balance_take_succ hb] at hnn ⊢
      by_cases h91 : src[p] = 91
      · rw [h91] at hb
        rw [opens_succ_open hb, h91, balance_open, List.length_append, List.length_singleton]
        push_cast
        omega
      · by_cases h93 : src[p] = 93
        · rw [h93] at hb
          rw [h93, balance_close] at hnn
          rw [opens_succ_close hb, h93, balance_close, List.length_dropLast]
          omega
        · rw [opens_succ_other hb h91 h93, balance_other h91 h93]
          omega
  intro p
  rcases Nat.le_total p src.length with h | h
  · exact hle p h
  · rw [opens_of_length_le src p h, List.take_of_length_le h, hle _ (le_refl _),
      List.take_length]

theorem opens_end_of_balanced {src : List Byte} (h : BalancedBrackets src) :
    ∀ p, src.length ≤ p → opens src p = [] := by
  intro p hp
  have h1 := length_opens h.1 p
  rw [List.take_of_length_le hp, h.2] at h1
  exact List.length_eq_zero.1 (by exact_mod_cast h1)

/-- The innermost open bracket `k` at offset `p`: it is a `[` before `p`, the
brackets open at `k` are the other ones open at `p`, and `k` stays open at
every offset between. -/
theorem opens_last (src : List Byte) :
    ∀ (p : Nat) (l : List Nat) (k : Nat), opens src p = l ++ [k] →
      k < p ∧ src[k]? = some 91 ∧ opens src k = l ∧
      ∀ j, k < j → j ≤ p → ∃ l1, opens src j = l ++ [k] ++ l1 := by
  intro p
  induction p using Nat.strong_induction_on with
  | _ p ih =>
    intro l k h
    match p, ih, h with
    | 0, _, h =>
      rw [opens_zero] at h
      exact absurd h (by simp)
    | p + 1, ih, h =>
      rcases hb : src[p]? with _ | b
      · rw [opens_succ_none hb] at h
        obtain ⟨h1, h2, h3, h4⟩ := ih p (Nat.lt_succ_self p) l k h
        refine ⟨by omega, h2, h3, fun j hj1 hj2 => ?_⟩
        rcases Nat.lt_or_ge j (p + 1) with hj | hj
        · exact h4 j hj1 (by omega)
        · have : j = p + 1 := by omega
          subst this
          exact ⟨[], by rw [opens_succ_none hb, h]; simp⟩
      · by_cases h91 : b = 91
        · subst h91
          rw [opens_succ_open hb] at h
          obtain ⟨hl, hk⟩ := List.append_inj' h rfl
          have hk' : p = k := by simpa using hk
          subst hk'
          refine ⟨Nat.lt_succ_self _, hb, hl, fun j hj1 hj2 => ?_⟩
          have : j = p + 1 := by omega
          subst this
          exact ⟨[], by rw [opens_succ_open hb, hl]; simp⟩
        · by_cases h93 : b = 93
          · subst h93
            rw [opens_succ_close hb] at h
            have hne : opens src p ≠ [] := by
              intro hnil
              rw [hnil] at h
              exact absurd h (by simp)
            have hsplit := List.dropLast_append_getLast hne
            rw [h] at hsplit
            obtain ⟨h1, _, h3, h4⟩ := ih p (Nat.lt_succ_self p) (l ++ [k])
              ((opens src p).getLast hne) hsplit.symm
            obtain ⟨g1, g2, g3, g4⟩ := ih _ (by omega) l k h3
            refine ⟨by omega, g2, g3, fun j hj1 hj2 => ?_⟩
            rcases Nat.lt_or_ge j (p + 1) with hj | hj
            · rcases Nat.lt_or_ge ((opens src p).getLast hne) j with hq | hq
              · obtain ⟨l1, hl1⟩ := h4 j hq (by omega)
                exact ⟨[(opens src p).getLast hne] ++ l1, by rw [hl1]; simp⟩
              · exact g4 j hj1 hq
            · have : j = p + 1 := by omega
              subst this
              exact ⟨[], by rw [opens_succ_close hb, h]; simp⟩
          · rw [opens_succ_other hb h91 h93] at h
            obtain ⟨h1, h2, h3, h4⟩ := ih p (Nat.lt_succ_self p) l k h
            refine ⟨by omega, h2, h3, fun j hj1 hj2 => ?_⟩
            rcases Nat.lt_or_ge j (p + 1) with hj | hj
            · exact h4 j hj1 (by omega)
            · have : j = p + 1 := by omega
              subst this
              exact ⟨[], by rw [opens_succ_other hb h91 h93, h]; simp⟩

/-! ## The loop stack follows the open brackets -/

/-- A byte that is neither bracket nor `0xFF`, read in the main loop, moves the
cursor by one and leaves the loop stack and the status alone. -/
theorem step_frame_nonbracket {src : List Byte} {N : Nat} {s : Machine} {b : Byte}
    (htape : TapeOk N s) (hrun : s.status = .running) (hb : src[s.pos]? = some b)
    (h255 : b.val ≠ 255) (h91 : b ≠ 91) (h93 : b ≠ 93) :
    (step src s).status = .running ∧ (step src s).pos = s.pos + 1 ∧
    (step src s).STACK = s.STACK ∧ (step src s).SP = s.SP := by
  obtain ⟨hlen, hp, _, _⟩ := htape
  have hN : s.MEMORY.length ≠ 0 := by omega
  have hv : s.MEMORY[s.ptr]? = some s.MEMORY[s.ptr] := List.getElem?_eq_getElem (by omega)
  by_cases h60 : b = 60
  · subst h60; rw [step_lt hrun hb hN]; exact ⟨hrun, rfl, rfl, rfl⟩
  by_cases h62 : b = 62
  · subst h62; rw [step_gt hrun hb hN]; exact ⟨hrun, rfl, rfl, rfl⟩
  by_cases h43 : b = 43
  · subst h43; rw [step_plus hrun hb hv]; exact ⟨hrun, rfl, rfl, rfl⟩
  by_cases h45 : b = 45
  · subst h45; rw [step_minus hrun hb hv]; exact ⟨hrun, rfl, rfl, rfl⟩
  by_cases h46 : b = 46
  · subst h46; rw [step_dot hrun hb hv]; exact ⟨hrun, rfl, rfl, rfl⟩
  have v60 : b.val ≠ 60 := fun h => h60 (Fin.ext h)
  have v62 : b.val ≠ 62 := fun h => h62 (Fin.ext h)
  have v43 : b.val ≠ 43 := fun h => h43 (Fin.ext h)
  have v45 : b.val ≠ 45 := fun h => h45 (Fin.ext h)
  have v46 : b.val ≠ 46 := fun h => h46 (Fin.ext h)
  have v91 : b.val ≠ 91 := fun h => h91 (Fin.ext h)
  have v93 : b.val ≠ 93 := fun h => h93 (Fin.ext h)
  rw [step_other hrun hb h255 v60 v62 v43 v45 v46 v91 v93]
  exact ⟨hrun, rfl, rfl, rfl⟩

theorem take_set_succ (l : List Nat) (n a : Nat) (h : n < l.length) :
    (l.set n a).take (n + 1) = l.take n ++ [a] := by
  rw [List.take_succ, List.getElem?_set_self h, List.set_take,
    List.set_eq_of_length_le (by simp)]
  rfl

theorem fseek_back (p k : Nat) : fseek p (((k + 1 : Nat) : Int) - 1) = k := by
  simp [fseek]

/-- The main loop at `[` with a non-zero cell: the push keeps the invariant. -/
theorem loopInv_push {src : List Byte} {N : Nat} (hlen : src.length < 65536)
    (hbal : BalancedBrackets src) (hnest : NestingAtMost src 512) {s : Machine}
    (htape : TapeOk N s) (hstk : s.STACK.length = STACK_SIZE) (hrun : s.status = .running)
    (hlenO : (opens src s.pos).length = s.SP)
    (htake : s.STACK.take s.SP = (opens src s.pos).map (· + 1))
    (hb : src[s.pos]? = some 91) (hv0 : s.MEMORY[s.ptr]? ≠ some 0) :
    s.SP < STACK_SIZE ∧
    step src s = { s with STACK := s.STACK.set s.SP (s.pos + 1), SP := s.SP + 1,
                          pos := s.pos + 1, max_ptr := updateMax s } ∧
    LoopInv src (step src s) := by
  obtain ⟨hmem, hp, _, _⟩ := htape
  have hv : s.MEMORY[s.ptr]? = some s.MEMORY[s.ptr] := List.getElem?_eq_getElem (by omega)
  have hne : s.MEMORY[s.ptr] ≠ 0 := by
    intro h0; rw [h0] at hv; exact hv0 hv
  have hpos : s.pos < src.length := by
    rcases Nat.lt_or_ge s.pos src.length with h | h
    · exact h
    · rw [List.getElem?_eq_none h] at hb; cases hb
  have hopen := opens_succ_open hb
  have hSP : s.SP < STACK_SIZE := by
    have h1 := length_opens hbal.1 (s.pos + 1)
    have h2 := hnest (s.pos + 1) (by omega)
    rw [hopen, List.length_append, List.length_singleton, hlenO] at h1
    unfold STACK_SIZE
    push_cast at h1
    omega
  have hstep := step_open_nonzero hrun hb hv hne hSP
  rw [Nat.mod_eq_of_lt (by omega : s.pos + 1 < 65536)] at hstep
  refine ⟨hSP, hstep, ?_⟩
  rw [hstep]
  refine ⟨by simpa using hstk, 0, Or.inl ⟨hrun, rfl⟩, ?_, ?_⟩
  · show (opens src (s.pos + 1)).length = s.SP + 1 + 0
    rw [hopen, List.length_append, List.length_singleton, hlenO]
  · show (s.STACK.set s.SP (s.pos + 1)).take (s.SP + 1)
        = ((opens src (s.pos + 1)).take (s.SP + 1)).map (· + 1)
    rw [take_set_succ _ _ _ (by rw [hstk]; exact hSP), htake, hopen,
      List.take_of_length_le (by simp [hlenO])]
    simp

/-- The main loop at `]`: the stack is not empty, and the pop moves the cursor
to the innermost open `[` and keeps the invariant. -/
theorem loopInv_pop {src : List Byte} (hbal : BalancedBrackets src) {s : Machine}
    (hstk : s.STACK.length = STACK_SIZE) (hrun : s.status = .running)
    (hlenO : (opens src s.pos).length = s.SP)
    (htake : s.STACK.take s.SP = (opens src s.pos).map (· + 1))
    (hb : src[s.pos]? = some 93) :
    ∃ (l : List Nat) (k : Nat), opens src s.pos = l ++ [k] ∧ s.SP = l.length + 1 ∧
      k < s.pos ∧ src[k]? = some 91 ∧ opens src k = l ∧
      step src s = { s with SP := s.SP - 1, pos := k, max_ptr := updateMax s } ∧
      LoopInv src (step src s) := by
  have hpos : s.pos < src.length := by
    rcases Nat.lt_or_ge s.pos src.length with h | h
    · exact h
    · rw [List.getElem?_eq_none h] at hb; cases hb
  have hne : opens src s.pos ≠ [] := by
    intro hnil
    have h1 := length_opens hbal.1 s.pos
    have h2 := hbal.1 (s.pos + 1) (by omega)
    rw [balance_take_succ hb, balance_close] at h2
    rw [hnil] at h1
    simp at h1
    omega
  obtain ⟨l, k, hlk⟩ : ∃ l k, opens src s.pos = l ++ [k] :=
    ⟨_, _, (List.dropLast_append_getLast hne).symm⟩
  have hSP : s.SP = l.length + 1 := by
    rw [← hlenO, hlk, List.length_append, List.length_singleton]
  obtain ⟨hk, hopen, hl, _⟩ := opens_last src s.pos l k hlk
  have htop : s.STACK.getD (s.SP - 1) 0 = k + 1 := by
    have h1 : (s.STACK.take s.SP)[s.SP - 1]? = s.STACK[s.SP - 1]? :=
      List.getElem?_take_of_lt (by omega)
    rw [htake, hlk, hSP] at h1
    simp at h1
    rw [List.getD_eq_getElem?_getD, hSP, Nat.add_sub_cancel, ← h1]
    rfl
  have hstep := step_close_pop hrun hb (by omega : s.SP ≠ 0)
  rw [htop, fseek_back] at hstep
  refine ⟨l, k, hlk, hSP, hk, hopen, hl, hstep, ?_⟩
  rw [hstep]
  refine ⟨hstk, 0, Or.inl ⟨hrun, rfl⟩, ?_, ?_⟩
  · show (opens src k).length = s.SP - 1 + 0
    rw [hl, hSP]
    rfl
  · show s.STACK.take (s.SP - 1) = ((opens src k).take (s.SP - 1)).map (· + 1)
    have h2 : s.STACK.take (s.SP - 1) = (s.STACK.take s.SP).take (s.SP - 1) := by
      rw [List.take_take, Nat.min_eq_left (by omega)]
    rw [h2, htake, hlk, hl, hSP, Nat.add_sub_cancel, List.take_of_length_le (le_refl _),
      List.map_append, List.take_left' (by simp)]

/-- A turn of the skip-forward loop keeps the invariant; on a source with
balanced brackets the loop is never at the end of the source. -/
theorem loopInv_skip {src : List Byte} (hbal : BalancedBrackets src) {s : Machine}
    (hstk : s.STACK.length = STACK_SIZE) {c : Nat} (hskip : s.status = .skipping (c : Int))
    (hc : 0 < c) (hlenO : (opens src s.pos).length = s.SP + c)
    (htake : s.STACK.take s.SP = ((opens src s.pos).take s.SP).map (· + 1)) :
    LoopInv src (step src s) := by
  rcases hb : src[s.pos]? with _ | b
  · have hnil := opens_end_of_balanced hbal s.pos (List.getElem?_eq_none_iff.1 hb)
    rw [hnil] at hlenO
    simp at hlenO
    omega
  · have hstep := step_skipping hskip hb
    by_cases h91 : b = 91
    · subst h91
      have hopen := opens_succ_open hb
      rw [balance_open, if_pos (by omega)] at hstep
      rw [hstep]
      refine ⟨hstk, c + 1, Or.inr (Or.inr ⟨by push_cast; rfl, by omega⟩), ?_, ?_⟩
      · show (opens src (s.pos + 1)).length = s.SP + (c + 1)
        rw [hopen, List.length_append, List.length_singleton, hlenO]
        omega
      · show s.STACK.take s.SP = ((opens src (s.pos + 1)).take s.SP).map (· + 1)
        rw [hopen, List.take_append_of_le_length (by omega)]
        exact htake
    · by_cases h93 : b = 93
      · subst h93
        have hopen := opens_succ_close hb
        rw [balance_close] at hstep
        have hlen1 : (opens src (s.pos + 1)).length = s.SP + (c - 1) := by
          rw [hopen, List.length_dropLast, hlenO]
          omega
        have htake1 : s.STACK.take s.SP
            = ((opens src (s.pos + 1)).take s.SP).map (· + 1) := by
          rw [hopen, List.dropLast_eq_take, List.take_take, Nat.min_eq_left (by omega)]
          exact htake
        by_cases hc1 : c = 1
        · subst hc1
          rw [if_neg (by simp)] at hstep
          rw [hstep]
          exact ⟨hstk, 0, Or.inl ⟨rfl, rfl⟩, hlen1, htake1⟩
        · rw [if_pos (by omega)] at hstep
          rw [hstep]
          refine ⟨hstk, c - 1, Or.inr (Or.inr ⟨?_, by omega⟩), hlen1, htake1⟩
          show Status.skipping ((c : Int) + -1) = Status.skipping ((c - 1 : Nat) : Int)
          congr 1
          omega
      · have hopen := opens_succ_other hb h91 h93
        rw [balance_other h91 h93, if_pos (by omega)] at hstep
        rw [hstep]
        refine ⟨hstk, c, Or.inr (Or.inr ⟨by simp, hc⟩), ?_, ?_⟩
        · show (opens src (s.pos + 1)).length = s.SP + c
          rw [hopen, hlenO]
        · show s.STACK.take s.SP = ((opens src (s.pos + 1)).take s.SP).map (· + 1)
          rw [hopen]
          exact htake

/-- Every step keeps the invariant, on a source of fewer than 65536 bytes with
balanced brackets that nest at most 512 deep. -/
theorem step_loopInv {src : List Byte} {N : Nat} (hlen : src.length < 65536)
    (hbal : BalancedBrackets src) (hnest : NestingAtMost src 512) {s : Machine}
    (htape : TapeOk N s) (hinv : LoopInv src s) : LoopInv src (step src s) := by
  obtain ⟨hstk, c, hst, hlenO, htake⟩ := hinv
  rcases hst with ⟨hrun, rfl⟩ | ⟨hret, rfl⟩ | ⟨hskip, hc⟩
  · rw [Nat.add_zero] at hlenO
    have htake1 : s.STACK.take s.SP = (opens src s.pos).map (· + 1) := by
      rw [htake, List.take_of_length_le (by omega)]
    rcases hb : src[s.pos]? with _ | b
    · rw [step_eof hrun hb]
      exact ⟨hstk, 0, Or.inr (Or.inl ⟨rfl, rfl⟩), by simpa using hlenO, htake⟩
    · by_cases h91 : b = 91
      · subst h91
        by_cases hv0 : s.MEMORY[s.ptr]? = some 0
        · rw [step_open_zero hrun hb hv0]
          refine ⟨hstk, 1, Or.inr (Or.inr ⟨by simp, by decide⟩), ?_, ?_⟩
          · show (opens src (s.pos + 1)).length = s.SP + 1
            rw [opens_succ_open hb, List.length_append, List.length_singleton, hlenO]
          · show s.STACK.take s.SP = ((opens src (s.pos + 1)).take s.SP).map (· + 1)
            rw [opens_succ_open hb, List.take_left' hlenO]
            exact htake1
        · exact (loopInv_push hlen hbal hnest htape hstk hrun hlenO htake1 hb hv0).2.2
      · by_cases h93 : b = 93
        · subst h93
          obtain ⟨_, _, _, _, _, _, _, _, h⟩ := loopInv_pop hbal hstk hrun hlenO htake1 hb
          exact h
        · have hopen := opens_succ_other hb h91 h93
          by_cases h255 : b.val = 255
          · have hb2 : src[s.pos]? = some 255 := by
              rw [hb, ← Fin.ext (a := b) (b := 255) h255]
            rw [step_byte_ff hrun hb2]
            refine ⟨hstk, 0, Or.inr (Or.inl ⟨rfl, rfl⟩), ?_, ?_⟩
            · show (opens src (s.pos + 1)).length = s.SP + 0
              rw [hopen, hlenO]; rfl
            · show s.STACK.take s.SP = ((opens src (s.pos + 1)).take s.SP).map (· + 1)
              rw [hopen]; exact htake
          · obtain ⟨e1, e2, e3, e4⟩ := step_frame_nonbracket htape hrun hb h255 h91 h93
            refine ⟨by rw [e3]; exact hstk, 0, Or.inl ⟨e1, rfl⟩, ?_, ?_⟩
            · rw [e2, e4, hopen, hlenO]; rfl
            · rw [e2, e3, e4, hopen]; exact htake
  · rw [step_finished (by rw [hret]; rfl)]
    exact ⟨hstk, 0, Or.inr (Or.inl ⟨hret, rfl⟩), hlenO, htake⟩
  · exact loopInv_skip hbal hstk hskip hc hlenO htake

theorem init_loopInv (src : List Byte) (N : Nat) : LoopInv src (init N) :=
  ⟨List.length_replicate _ _, 0, Or.inl ⟨rfl, rfl⟩, rfl, rfl⟩

theorem run_loopInv {src : List Byte} {N : Nat} (hlen : src.length < 65536)
    (hbal : BalancedBrackets src) (hnest : NestingAtMost src 512) (n : Nat) {s : Machine}
    (htape : TapeOk N s) (hinv : LoopInv src s) :
    TapeOk N (run src n s) ∧ LoopInv src (run src n s) := by
  induction n generalizing s with
  | zero => exact ⟨htape, hinv⟩
  | succ n ih => exact ih (step_tapeOk src htape) (step_loopInv hlen hbal hnest htape hinv)

/-! ## Stack depth and nesting depth -/

theorem step_skipping_frame {src : List Byte} {s : Machine} {c : Int}
    (hs : s.status = .skipping c) :
    (step src s).SP = s.SP ∧ (step src s).STACK = s.STACK ∧
    (step src s).MEMORY = s.MEMORY ∧ (step src s).ptr = s.ptr ∧ (step src s).out = s.out := by
  simp [step, hs, stepSkipping]

/-- C18: on a source of fewer than 65536 bytes with balanced brackets that nest
at most 512 deep, and a tape of at least one cell, every state reached from
the initial state is in the main loop, in the skip-forward loop or returned,
never in a fault.  In the main loop (and after the return) `SP` is the number
of `[` minus the number of `]` before the source cursor.  Inside the
skip-forward loop that number is `SP + nest`, and a turn of the loop leaves
`SP` and `STACK` unchanged. -/
theorem stack_depth_is_nesting_depth (src : List Byte) (N n : Nat) (hN : 1 ≤ N)
    (hlen : src.length < 65536) (hbal : BalancedBrackets src)
    (hnest : NestingAtMost src 512) :
    ((interpret src N n).status = .running ∨ (interpret src N n).status = .returned →
      ((interpret src N n).SP : Int) = balance (src.take (interpret src N n).pos)) ∧
    (∀ c : Int, (interpret src N n).status = .skipping c →
      0 < c ∧
      ((interpret src N n).SP : Int) + c = balance (src.take (interpret src N n).pos) ∧
      (step src (interpret src N n)).SP = (interpret src N n).SP ∧
      (step src (interpret src N n)).STACK = (interpret src N n).STACK) ∧
    ((interpret src N n).status = .running ∨ (interpret src N n).status = .returned ∨
      ∃ c : Int, (interpret src N n).status = .skipping c) := by
  have hinv : LoopInv src (interpret src N n) :=
    (run_loopInv hlen hbal hnest n (init_tapeOk hN) (init_loopInv src N)).2
  obtain ⟨_, c, hst, hlenO, _⟩ := hinv
  have hdepth := length_opens hbal.1 (interpret src N n).pos
  rw [hlenO] at hdepth
  push_cast at hdepth
  refine ⟨?_, ?_, ?_⟩
  · intro h
    rcases hst with ⟨_, rfl⟩ | ⟨_, rfl⟩ | ⟨hskip, _⟩
    · simpa using hdepth
    · simpa using hdepth
    · rcases h with h | h <;> rw [hskip] at h <;> cases h
  · intro c1 hc1
    rcases hst with ⟨h, _⟩ | ⟨h, _⟩ | ⟨hskip, hc⟩
    · rw [hc1] at h; cases h
    · rw [hc1] at h; cases h
    · rw [hc1] at hskip
      have e : c1 = (c : Int) := Status.skipping.inj hskip
      subst e
      exact ⟨by exact_mod_cast hc, hdepth, (step_skipping_frame hc1).1,
        (step_skipping_frame hc1).2.1⟩
  · rcases hst with ⟨h, _⟩ | ⟨h, _⟩ | ⟨hskip, _⟩
    · exact Or.inl h
    · exact Or.inr (Or.inl h)
    · exact Or.inr (Or.inr ⟨_, hskip⟩)

theorem stack_depth_is_nesting_depth_witness :
    ((interpret [43, 91, 91, 45, 93, 93] 1 3).SP : Int)
      = balance (([43, 91, 91, 45, 93, 93] : List Byte).take
          (interpret [43, 91, 91, 45, 93, 93] 1 3).pos) :=
  (stack_depth_is_nesting_depth [43, 91, 91, 45, 93, 93] 1 3 (by decide) (by decide)
    (by decide) (by decide)).1 (Or.inl (by decide))

/-- C14: on a source of fewer than 65536 bytes with balanced brackets that nest
at most 512 deep, and a tape of at least one cell, if `interpret` has returned
with the source cursor at the end of the source, then `SP = 0`: the loop stack
is empty, and the run stays in that state. -/
theorem stack_empty_at_end (src : List Byte) (N n : Nat) (hN : 1 ≤ N)
    (hlen : src.length < 65536) (hbal : BalancedBrackets src)
    (hnest : NestingAtMost src 512)
    (hret : (interpret src N n).status = .returned)
    (hend : src.length ≤ (interpret src N n).pos) :
    (interpret src N n).SP = 0 ∧ (interpret src N n).loopStack = [] ∧
    ∀ k, interpret src N (n + k) = interpret src N n := by
  have hstay : ∀ k, interpret src N (n + k) = interpret src N n := by
    intro k
    unfold interpret
    rw [run_add]
    exact run_finished k (by
      show (interpret src N n).status.finished = true
      rw [hret]; rfl)
  have hinv : LoopInv src (interpret src N n) :=
    (run_loopInv hlen hbal hnest n (init_tapeOk hN) (init_loopInv src N)).2
  obtain ⟨_, c, _, hlenO, _⟩ := hinv
  rw [opens_end_of_balanced hbal _ hend] at hlenO
  have h0 : (interpret src N n).SP = 0 := by
    simp at hlenO
    omega
  exact ⟨h0, by simp [Machine.loopStack, h0], hstay⟩

theorem stack_empty_at_end_witness :
    (interpret [43, 91, 91, 45, 93, 93] 1 15).status = .returned ∧
    (interpret [43, 91, 91, 45, 93, 93] 1 15).SP = 0 :=
  ⟨by decide,
   (stack_empty_at_end [43, 91, 91, 45, 93, 93] 1 15 (by decide) (by decide) (by decide)
    (by decide) (by decide) (by decide)).1⟩

/-! ## The scan ends at the matching bracket -/

/-- A `[` has at most one closing bracket: two `]` whose innermost open
bracket is the `[` at `k` are the same `]`. -/
theorem close_unique (src : List Byte) {m m1 k : Nat} {l l1 : List Nat}
    (hm : src[m]? = some 93) (hm1 : src[m1]? = some 93)
    (ho : opens src m = l ++ [k]) (ho1 : opens src m1 = l1 ++ [k]) : m = m1 := by
  have key : ∀ (a b : Nat) (la lb : List Nat), src[a]? = some 93 →
      opens src a = la ++ [k] → opens src b = lb ++ [k] → ¬ a < b := by
    intro a b la lb ha hoa hob hlt
    obtain ⟨hka, _, hla, _⟩ := opens_last src a la k hoa
    obtain ⟨_, _, hlb, hbetween⟩ := opens_last src b lb k hob
    obtain ⟨l2, hl2⟩ := hbetween (a + 1) (by omega) (by omega)
    rw [opens_succ_close ha, hoa, List.dropLast_concat] at hl2
    have : la = lb := by rw [← hla, ← hlb]
    subst this
    have := congrArg List.length hl2
    simp at this
  rcases Nat.lt_trichotomy m m1 with h | h | h
  · exact absurd h (key m m1 l l1 hm ho ho1)
  · exact h
  · exact absurd h (key m1 m l1 l hm1 ho1 ho)

/-- The skip-forward scan started by a `[` on a zero cell, on a source with
balanced brackets: it ends just after the `]` whose innermost open bracket is
that `[`, with nothing but the cursor (and `max_ptr`) changed. -/
theorem scan_from_open {src : List Byte} (hbal : BalancedBrackets src) {s : Machine}
    (hrun : s.status = .running) (hb : src[s.pos]? = some 91)
    (hcell : s.MEMORY[s.ptr]? = some 0) :
    ∃ m, s.pos < m ∧ src[m]? = some 93 ∧ opens src m = opens src s.pos ++ [s.pos] ∧
      run src (m + 1 - s.pos) s = { s with pos := m + 1, max_ptr := updateMax s } := by
  have Q : ∀ d,
      (∃ m, s.pos < m ∧ src[m]? = some 93 ∧ opens src m = opens src s.pos ++ [s.pos] ∧
        run src (m + 1 - s.pos) s = { s with pos := m + 1, max_ptr := updateMax s }) ∨
      (∃ l1 : List Nat, opens src (s.pos + 1 + d) = opens src s.pos ++ [s.pos] ++ l1 ∧
        run src (d + 1) s = { s with pos := s.pos + 1 + d, max_ptr := updateMax s,
                                     status := .skipping ((l1.length : Int) + 1) }) := by
    intro d
    induction d with
    | zero =>
      refine Or.inr ⟨[], by rw [Nat.add_zero, opens_succ_open hb]; simp, ?_⟩
      rw [run_succ, run_zero, step_open_zero hrun hb hcell]
      simp
    | succ d ih =>
      rcases ih with hleft | ⟨l1, ho, hr⟩
      · exact Or.inl hleft
      · rcases hbp : src[s.pos + 1 + d]? with _ | b
        · have hnil := opens_end_of_balanced hbal (s.pos + 1 + d)
            (List.getElem?_eq_none_iff.1 hbp)
          rw [hnil] at ho
          exact absurd ho (by simp)
        · have hstep : run src (d + 1 + 1) s = _ :=
            (run_succ_last src (d + 1) s).trans
              (step_skipping (s := run src (d + 1) s) (c := (l1.length : Int) + 1) (b := b)
                (by rw [hr]) (by rw [hr]; exact hbp))
          rw [hr] at hstep
          by_cases h91 : b = 91
          · subst h91
            refine Or.inr ⟨l1 ++ [s.pos + 1 + d], ?_, ?_⟩
            · rw [show s.pos + 1 + (d + 1) = (s.pos + 1 + d) + 1 from rfl,
                opens_succ_open hbp, ho]
              simp
            · rw [hstep, balance_open, if_pos (by omega)]
              simp only [List.length_append, List.length_singleton]
              push_cast
              rfl
          · by_cases h93 : b = 93
            · subst h93
              rcases List.eq_nil_or_concat l1 with hnil | ⟨l2, x, hl2⟩
              · subst hnil
                refine Or.inl ⟨s.pos + 1 + d, by omega, hbp, by simpa using ho, ?_⟩
                rw [show s.pos + 1 + d + 1 - s.pos = d + 1 + 1 by omega, hstep, balance_close,
                  if_neg (by simp)]
                simp [hrun]
              · rw [List.concat_eq_append] at hl2
                subst hl2
                refine Or.inr ⟨l2, ?_, ?_⟩
                · rw [show s.pos + 1 + (d + 1) = (s.pos + 1 + d) + 1 from rfl,
                    opens_succ_close hbp, ho, ← List.append_assoc, List.dropLast_concat]
                · rw [hstep, balance_close, if_pos (by
                    simp only [List.length_append, List.length_singleton]
                    push_cast
                    omega)]
                  simp only [List.length_append, List.length_singleton]
                  push_cast
                  simp only [Machine.mk.injEq, true_and, and_true]
                  refine ⟨rfl, ?_⟩
                  congr 1
                  ring
            · refine Or.inr ⟨l1, ?_, ?_⟩
              · rw [show s.pos + 1 + (d + 1) = (s.pos + 1 + d) + 1 from rfl,
                  opens_succ_other hbp h91 h93, ho]
              · rw [hstep, balance_other h91 h93, if_pos (by omega)]
                simp
                rfl
  rcases Q src.length with hleft | ⟨l1, ho, _⟩
  · exact hleft
  · rw [opens_end_of_balanced hbal _ (by omega)] at ho
    exact absurd ho (by simp)

/-! ## The table of the one-pass builder -/

theorem tableUpTo_succ_close_some {src : List Byte} {p k : Nat} (hb : src[p]? = some 93)
    (hk : (opens src p).getLast? = some k) :
    tableUpTo src (p + 1) = (k, p) :: tableUpTo src p := by
  simp [tableUpTo, hb, hk]

theorem tableUpTo_succ_close_none {src : List Byte} {p : Nat} (hb : src[p]? = some 93)
    (hk : (opens src p).getLast? = none) :
    tableUpTo src (p + 1) = tableUpTo src p := by
  simp [tableUpTo, hb, hk]

theorem tableUpTo_succ_other {src : List Byte} {p : Nat} {b : Byte} (hb : src[p]? = some b)
    (h93 : b ≠ 93) : tableUpTo src (p + 1) = tableUpTo src p := by
  simp [tableUpTo, hb, h93]

theorem tableUpTo_succ_none {src : List Byte} {p : Nat} (hb : src[p]? = none) :
    tableUpTo src (p + 1) = tableUpTo src p := by
  simp [tableUpTo, hb]

theorem tableUpTo_of_length_le (src : List Byte) (p : Nat) (h : src.length ≤ p) :
    tableUpTo src p = tableUpTo src src.length := by
  induction p with
  | zero =>
    have : src.length = 0 := by omega
    rw [this]
  | succ p ih =>
    rcases Nat.eq_or_lt_of_le h with heq | hlt
    · rw [heq]
    · rw [tableUpTo_succ_none (List.getElem?_eq_none_iff.2 (by omega)), ih (by omega)]

theorem buildTable_cons_open (rest : List Byte) (p : Nat) (stack : List Nat)
    (t : List (Nat × Nat)) :
    buildTable (91 :: rest) p stack t = buildTable rest (p + 1) (p :: stack) t := by
  simp [buildTable]

theorem buildTable_cons_close_cons (rest : List Byte) (p k : Nat) (stack : List Nat)
    (t : List (Nat × Nat)) :
    buildTable (93 :: rest) p (k :: stack) t = buildTable rest (p + 1) stack ((k, p) :: t) := by
  simp [buildTable]

theorem buildTable_cons_close_nil (rest : List Byte) (p : Nat) (t : List (Nat × Nat)) :
    buildTable (93 :: rest) p [] t = buildTable rest (p + 1) [] t := by
  simp [buildTable]

theorem buildTable_cons_other {b : Byte} (h91 : b ≠ 91) (h93 : b ≠ 93) (rest : List Byte)
    (p : Nat) (stack : List Nat) (t : List (Nat × Nat)) :
    buildTable (b :: rest) p stack t = buildTable rest (p + 1) stack t := by
  simp [buildTable, h91, h93]

theorem buildTable_eq (src : List Byte) :
    ∀ (rest : List Byte) (p : Nat), src.drop p = rest →
      buildTable rest p (opens src p).reverse (tableUpTo src p) = tableUpTo src src.length := by
  intro rest
  induction rest with
  | nil =>
    intro p hp
    rw [buildTable]
    exact tableUpTo_of_length_le src p (List.drop_eq_nil_iff.1 hp)
  | cons b rest ih =>
    intro p hp
    have hlt : p < src.length := by
      by_contra hge
      rw [List.drop_eq_nil_iff.2 (by omega)] at hp
      exact absurd hp (by simp)
    have hb : src[p]? = some b := by
      have := congrArg (fun l => l[0]?) hp
      simpa using this
    have hrest : src.drop (p + 1) = rest := by
      have := congrArg List.tail hp
      simpa using this
    by_cases h91 : b = 91
    · subst h91
      have := ih (p + 1) hrest
      rw [opens_succ_open hb, tableUpTo_succ_other hb (by decide)] at this
      rw [buildTable_cons_open]
      simpa using this
    · by_cases h93 : b = 93
      · subst h93
        have := ih (p + 1) hrest
        rcases List.eq_nil_or_concat (opens src p) with hnil | ⟨l, k, hl⟩
        · rw [opens_succ_close hb, tableUpTo_succ_close_none hb (by rw [hnil]; rfl), hnil] at this
          rw [hnil, List.reverse_nil, buildTable_cons_close_nil]
          simpa using this
        · rw [List.concat_eq_append] at hl
          rw [opens_succ_close hb,
            tableUpTo_succ_close_some hb (by rw [hl]; exact List.getLast?_concat l), hl,
            List.dropLast_concat] at this
          rw [hl, List.reverse_append, List.reverse_singleton, List.singleton_append,
            buildTable_cons_close_cons]
          exact this
      · have := ih (p + 1) hrest
        rw [opens_succ_other hb h91 h93, tableUpTo_succ_other hb h93] at this
        rw [buildTable_cons_other h91 h93]
        exact this

/-- The one-pass builder pairs every `]` with the innermost `[` open at it. -/
theorem bracketTable_eq (src : List Byte) : bracketTable src = tableUpTo src src.length :=
  buildTable_eq src src 0 rfl

/-- The table maps a `]` to the innermost `[` open at it. -/
theorem openOf_tableUpTo (src : List Byte) {m k : Nat} {l : List Nat}
    (hm : src[m]? = some 93) (ho : opens src m = l ++ [k]) :
    ∀ P, m < P → openOf (tableUpTo src P) m = some k := by
  intro P
  induction P with
  | zero => intro h; omega
  | succ P ih =>
    intro hlt
    rcases Nat.eq_or_lt_of_le (Nat.le_of_lt_succ hlt) with heq | hlt1
    · subst heq
      rw [tableUpTo_succ_close_some hm (by rw [ho]; exact List.getLast?_concat l)]
      simp [openOf]
    · rcases hb : src[P]? with _ | b
      · rw [tableUpTo_succ_none hb]
        exact ih hlt1
      · by_cases h93 : b = 93
        · subst h93
          rcases hk : (opens src P).getLast? with _ | k1
          · rw [tableUpTo_succ_close_none hb hk]
            exact ih hlt1
          · rw [tableUpTo_succ_close_some hb hk]
            have hne : ¬ P = m := by omega
            have := ih hlt1
            simp only [openOf] at this ⊢
            rw [List.find?_cons_of_neg _ (by simpa using hne)]
            exact this
        · rw [tableUpTo_succ_other hb h93]
          exact ih hlt1

/-- The table maps a `[` to the `]` at which it is the innermost open `[`. -/
theorem closeOf_tableUpTo (src : List Byte) {m k : Nat} {l : List Nat}
    (hm : src[m]? = some 93) (ho : opens src m = l ++ [k]) :
    ∀ P, m < P → closeOf (tableUpTo src P) k = some m := by
  intro P
  induction P with
  | zero => intro h; omega
  | succ P ih =>
    intro hlt
    rcases Nat.eq_or_lt_of_le (Nat.le_of_lt_succ hlt) with heq | hlt1
    · subst heq
      rw [tableUpTo_succ_close_some hm (by rw [ho]; exact List.getLast?_concat l)]
      simp [closeOf]
    · rcases hb : src[P]? with _ | b
      · rw [tableUpTo_succ_none hb]
        exact ih hlt1
      · by_cases h93 : b = 93
        · subst h93
          rcases hk : (opens src P).getLast? with _ | k1
          · rw [tableUpTo_succ_close_none hb hk]
            exact ih hlt1
          · rw [tableUpTo_succ_close_some hb hk]
            obtain ⟨l1, hl1⟩ := List.getLast?_eq_some_iff.1 hk
            have hne : ¬ k1 = k := by
              intro h
              subst h
              have := close_unique src hm hb ho hl1
              omega
            have := ih hlt1
            simp only [closeOf] at this ⊢
            rw [List.find?_cons_of_neg _ (by simpa using hne)]
            exact this
        · rw [tableUpTo_succ_other hb h93]
          exact ih hlt1

theorem openOf_bracketTable (src : List Byte) {m k : Nat} {l : List Nat}
    (hm : src[m]? = some 93) (ho : opens src m = l ++ [k]) :
    openOf (bracketTable src) m = some k := by
  rw [bracketTable_eq]
  have hlt : m < src.length := by
    by_contra h
    rw [List.getElem?_eq_none_iff.2 (by omega)] at hm
    exact absurd hm (by simp)
  exact openOf_tableUpTo src hm ho src.length hlt

theorem closeOf_bracketTable (src : List Byte) {m k : Nat} {l : List Nat}
    (hm : src[m]? = some 93) (ho : opens src m = l ++ [k]) :
    closeOf (bracketTable src) k = some m := by
  rw [bracketTable_eq]
  have hlt : m < src.length := by
    by_contra h
    rw [List.getElem?_eq_none_iff.2 (by omega)] at hm
    exact absurd hm (by simp)
  exact closeOf_tableUpTo src hm ho src.length hlt

/-! ## Each step of the reference interpreter is a stretch of steps of `interpret` -/

theorem loopInv_running {src : List Byte} {s : Machine} (hinv : LoopInv src s)
    (hrun : s.status = .running) :
    s.STACK.length = STACK_SIZE ∧ (opens src s.pos).length = s.SP ∧
      s.STACK.take s.SP = (opens src s.pos).map (· + 1) := by
  obtain ⟨hstk, c, hst, hlenO, htake⟩ := hinv
  rcases hst with ⟨_, rfl⟩ | ⟨hret, _⟩ | ⟨hskip, _⟩
  · rw [Nat.add_zero] at hlenO
    exact ⟨hstk, hlenO, by rw [htake, List.take_of_length_le (by omega)]⟩
  · rw [hrun] at hret
    cases hret
  · rw [hrun] at hskip
    cases hskip

/-- Outside the brackets the two interpreters execute an instruction alike. -/
theorem toRef_dispatch {N : Nat} (t : List (Nat × Nat)) {ch : Int} (k : Nat) {s : Machine}
    (htape : TapeOk N s) (hrun : s.status = .running) (h91 : ch ≠ 91) (h93 : ch ≠ 93) :
    toRef (dispatch ch s) = refDispatch t ch k (toRef s) ∧
      (dispatch ch s).status = .running := by
  obtain ⟨hlen, hp, _, _⟩ := htape
  have hN : s.MEMORY.length ≠ 0 := by omega
  have hv : s.MEMORY[s.ptr]? = some s.MEMORY[s.ptr] := List.getElem?_eq_getElem (by omega)
  unfold dispatch refDispatch
  simp only [toRef, Machine.memory_size, hN, hv, h91, h93, hrun, if_false]
  split_ifs <;> simp_all

theorem index_lt_length {src : List Byte} {m : Nat} {b : Byte}
    (h : src[m]? = some b) : m < src.length := by
  by_contra hge
  rw [List.getElem?_eq_none_iff.2 (by omega)] at h
  exact absurd h (by simp)

/-- A character that is no instruction leaves the reference interpreter as it is. -/
theorem refDispatch_other (t : List (Nat × Nat)) {ch : Int} (k : Nat) (r : RefMachine)
    (h60 : ch ≠ 60) (h62 : ch ≠ 62) (h43 : ch ≠ 43) (h45 : ch ≠ 45) (h46 : ch ≠ 46)
    (h91 : ch ≠ 91) (h93 : ch ≠ 93) : refDispatch t ch k r = r := by
  simp [refDispatch, h60, h62, h43, h45, h46, h91, h93]

/-- Reading a byte as a signed `char` or as its value makes no difference to
the reference interpreter: the instruction characters are below 128. -/
theorem refDispatch_toChar (t : List (Nat × Nat)) (b : Byte) (k : Nat) (r : RefMachine) :
    refDispatch t (b.val : Int) k r = refDispatch t (toChar (b.val : Int)) k r := by
  have hb := b.isLt
  by_cases h : b.val < 128
  · rw [toChar_byte, if_pos h]
  · have e : toChar (b.val : Int) = (b.val : Int) - 256 := by rw [toChar_byte, if_neg h]
    rw [e, refDispatch_other t k r (by omega) (by omega) (by omega) (by omega) (by omega)
        (by omega) (by omega),
      refDispatch_other t k r (by omega) (by omega) (by omega) (by omega) (by omega)
        (by omega) (by omega)]

theorem refStep_running {src : List Byte} {t : List (Nat × Nat)} {r : RefMachine} {b : Byte}
    (hrun : r.status = .running) (hb : src[r.pos]? = some b) :
    refStep src t r = refDispatch t (toChar (b.val : Int)) r.pos { r with pos := r.pos + 1 } := by
  rw [← refDispatch_toChar]
  simp [refStep, hrun, hb]

/-- On a source without the byte `0xFF`, one step of the reference
interpreter from the image of a state of `interpret` in the main loop is the
image of the state some steps of `interpret` later, again in the main loop or
returned. -/
theorem sim_step {src : List Byte} {N : Nat} (hlen : src.length < 65536)
    (hbal : BalancedBrackets src) (hnest : NestingAtMost src 512)
    (hff : (255 : Byte) ∉ src) {s : Machine}
    (htape : TapeOk N s) (hinv : LoopInv src s)
    (hst : s.status = .running ∨ s.status = .returned) :
    ∃ k, 1 ≤ k ∧ k ≤ src.length + 1 ∧
      refStep src (bracketTable src) (toRef s) = toRef (run src k s) ∧
      ((run src k s).status = .running ∨ (run src k s).status = .returned) := by
  rcases hst with hrun | hret
  swap
  · refine ⟨1, le_refl 1, by omega, ?_, ?_⟩
    · rw [run_finished 1 (by rw [hret]; rfl)]
      simp [refStep, toRef, hret]
    · rw [run_finished 1 (by rw [hret]; rfl)]
      exact Or.inr hret
  obtain ⟨hstk, hlenO, htake⟩ := loopInv_running hinv hrun
  have hp : s.ptr < s.MEMORY.length := by rw [htape.1]; exact htape.2.1
  have hv : s.MEMORY[s.ptr]? = some s.MEMORY[s.ptr] := List.getElem?_eq_getElem hp
  have hrs : (toRef s).status = .running := by simp [toRef, hrun]
  rcases hb : src[s.pos]? with _ | b
  · refine ⟨1, le_refl 1, by omega, ?_, Or.inr ?_⟩
    · rw [run_succ, run_zero, step_eof hrun hb]
      simp [refStep, toRef, hrun, hb]
    · rw [run_succ, run_zero, step_eof hrun hb]
  by_cases h255 : b.val = 255
  · have hb1 : src[s.pos]? = some 255 := by
      rw [hb]
      exact congrArg some (Fin.ext h255)
    exact absurd (List.getElem?_mem hb1) hff
  have hrefstep := refStep_running (t := bracketTable src) hrs (b := b) hb
  by_cases h91 : b = 91
  · subst h91
    rw [toChar_open] at hrefstep
    by_cases hv0 : s.MEMORY[s.ptr] = 0
    · obtain ⟨m, hkm, hm, hom, hrunm⟩ :=
        scan_from_open hbal hrun hb (by rw [hv, hv0])
      have hmlt := index_lt_length hm
      refine ⟨m + 1 - s.pos, by omega, by omega, ?_, Or.inl ?_⟩
      · rw [hrunm, hrefstep]
        simp [refDispatch, toRef, hv, hv0, hrun, closeOf_bracketTable src hm hom]
      · rw [hrunm]
        exact hrun
    · obtain ⟨_, hstep, _⟩ := loopInv_push hlen hbal hnest htape hstk hrun hlenO htake hb
        (by rw [hv]; simpa using hv0)
      refine ⟨1, le_refl 1, by omega, ?_, Or.inl ?_⟩
      · rw [run_succ, run_zero, hstep, hrefstep]
        simp [refDispatch, toRef, hv, hv0, hrun]
      · rw [run_succ, run_zero, hstep]
        exact hrun
  by_cases h93 : b = 93
  · subst h93
    rw [toChar_close] at hrefstep
    obtain ⟨l, k, hol, hSP, hk, hbk, hok, hstep, hinv1⟩ :=
      loopInv_pop hbal hstk hrun hlenO htake hb
    have htape1 : TapeOk N (step src s) := step_tapeOk src htape
    have hrun1 : (step src s).status = .running := by rw [hstep]; exact hrun
    have hpos1 : (step src s).pos = k := by rw [hstep]
    have hmem1 : (step src s).MEMORY = s.MEMORY := by rw [hstep]
    have hptr1 : (step src s).ptr = s.ptr := by rw [hstep]
    have hout1 : (step src s).out = s.out := by rw [hstep]
    have hb1 : src[(step src s).pos]? = some 91 := by rw [hpos1]; exact hbk
    by_cases hv0 : s.MEMORY[s.ptr] = 0
    · obtain ⟨m, hkm, hm, hom, hrunm⟩ :=
        scan_from_open hbal hrun1 hb1 (by rw [hmem1, hptr1, hv, hv0])
      rw [hpos1, hok] at hom
      have hmeq : m = s.pos := close_unique src hm hb hom hol
      subst hmeq
      have hmlt := index_lt_length hm
      refine ⟨(s.pos + 1 - (step src s).pos) + 1, by omega, by omega, ?_, Or.inl ?_⟩
      · rw [run_succ, hrunm, hrefstep]
        simp [refDispatch, toRef, hv, hv0, hrun, hrun1, hmem1, hptr1, hout1]
      · rw [run_succ, hrunm]
        exact hrun1
    · obtain ⟨hstk1, hlenO1, htake1⟩ := loopInv_running hinv1 hrun1
      obtain ⟨_, hstep2, _⟩ := loopInv_push hlen hbal hnest htape1 hstk1 hrun1 hlenO1 htake1 hb1
        (by rw [hmem1, hptr1, hv]; simpa using hv0)
      have hmlt := index_lt_length hb
      refine ⟨2, by omega, by omega, ?_, Or.inl ?_⟩
      · rw [run_succ, run_succ, run_zero, hstep2, hrefstep]
        simp [refDispatch, toRef, hv, hv0, hrun, hrun1, hmem1, hptr1, hout1, hpos1,
          openOf_bracketTable src hb hol]
      · rw [run_succ, run_succ, run_zero, hstep2]
        exact hrun1
  · have e91 : toChar (b.val : Int) ≠ 91 := fun h =>
      h91 (Fin.ext ((toChar_eq_iff b 91 (by decide)).1 (by simpa using h)))
    have e93 : toChar (b.val : Int) ≠ 93 := fun h =>
      h93 (Fin.ext ((toChar_eq_iff b 93 (by decide)).1 (by simpa using h)))
    have htape2 : TapeOk N { s with pos := s.pos + 1, max_ptr := updateMax s } := htape
    obtain ⟨href, hstat⟩ := toRef_dispatch (bracketTable src) s.pos htape2 hrun e91 e93
    refine ⟨1, le_refl 1, by omega, ?_, Or.inl ?_⟩
    · rw [run_succ, run_zero, step_running hrun hb h255, hrefstep, href]
      simp [toRef]
    · rw [run_succ, run_zero, step_running hrun hb h255]
      exact hstat

/-! ## The two interpreters end alike -/

theorem refStep_finished {src : List Byte} {t : List (Nat × Nat)} {r : RefMachine}
    (h : r.status.finished = true) : refStep src t r = r := by
  unfold refStep
  cases hs : r.status <;> simp_all [RefStatus.finished]

theorem refRun_finished {src : List Byte} {t : List (Nat × Nat)} (n : Nat) {r : RefMachine}
    (h : r.status.finished = true) : refRun src t n r = r := by
  induction n with
  | zero => rfl
  | succ n ih => simp [refRun, refStep_finished h, ih]

theorem refRun_succ_last (src : List Byte) (t : List (Nat × Nat)) (n : Nat) (r : RefMachine) :
    refRun src t (n + 1) r = refStep src t (refRun src t n r) := by
  induction n generalizing r with
  | zero => rfl
  | succ n ih =>
    show refRun src t (n + 1) (refStep src t r) = _
    rw [ih]
    rfl

theorem toRef_init (N : Nat) :
    toRef (init N)
      = { MEMORY := List.replicate N 0, ptr := 0, pos := 0, out := [], status := .running } := by
  simp [toRef, init]

/-- On a source without the byte `0xFF`, the state of the reference
interpreter after `n1` steps is the image of the state of `interpret` after
some `n` steps, with `n1 ≤ n` and `n ≤ n1 * (src.length + 1)`. -/
theorem sim_run {src : List Byte} {N : Nat} (hN : 1 ≤ N) (hlen : src.length < 65536)
    (hbal : BalancedBrackets src) (hnest : NestingAtMost src 512)
    (hff : (255 : Byte) ∉ src) :
    ∀ n1, ∃ n, n1 ≤ n ∧ n ≤ n1 * (src.length + 1) ∧
      reference src N n1 = toRef (interpret src N n) ∧
      ((interpret src N n).status = .running ∨ (interpret src N n).status = .returned) := by
  intro n1
  induction n1 with
  | zero =>
    refine ⟨0, le_refl 0, by omega, ?_, Or.inl rfl⟩
    show _ = toRef (init N)
    rw [toRef_init]
    rfl
  | succ n1 ih =>
    obtain ⟨n, hle, hub, href, hst⟩ := ih
    obtain ⟨htape, hinv⟩ :=
      run_loopInv hlen hbal hnest n (init_tapeOk hN) (init_loopInv src N)
    obtain ⟨k, hk1, hk2, hstep, hst1⟩ := sim_step hlen hbal hnest hff htape hinv hst
    refine ⟨n + k, by omega, ?_, ?_, ?_⟩
    · calc n + k ≤ n1 * (src.length + 1) + (src.length + 1) := by omega
        _ = (n1 + 1) * (src.length + 1) := by ring
    · unfold reference at href ⊢
      rw [refRun_succ_last, href]
      unfold interpret
      rw [run_add]
      exact hstep
    · unfold interpret
      rw [run_add]
      exact hst1

theorem toRef_returned {s : Machine} (h : s.status = .returned) :
    (toRef s).status = .returned := by
  simp [toRef, h]

theorem toRef_finished {s : Machine} (h : (toRef s).status.finished = true) :
    s.status = .returned := by
  by_contra hne
  simp [toRef, hne, RefStatus.finished] at h

theorem run_finished_le {src : List Byte} {s : Machine} {n m : Nat} (hnm : n ≤ m)
    (h : (run src n s).status.finished = true) : run src m s = run src n s := by
  obtain ⟨d, rfl⟩ := Nat.exists_eq_add_of_le hnm
  rw [run_add, run_finished d h]

/-- The table saves steps: on the source `[-]` the reference interpreter has
returned after two steps, when `interpret` is still scanning for the `]`. -/
theorem reference_takes_fewer_steps :
    (reference [91, 45, 93] 1 2).status = .returned ∧
    (interpret [91, 45, 93] 1 2).status = .skipping 1 ∧
    (interpret [91, 45, 93] 1 4).status = .returned := by
  decide

/-- Apart from the byte `0xFF` the two ways of resolving loops agree.  On a
source of fewer than 65536 bytes without the byte `0xFF`, with balanced
brackets that nest at most 512 deep, and a tape of at least one cell:
`interpret` terminates iff the reference interpreter does; if `interpret` has
terminated after `n` steps then so has the reference interpreter, and if the
reference interpreter has terminated after `n` steps then `interpret` has after
`n * (src.length + 1)` steps (a step of `interpret` reads one character, and
one jump by the table stands for at most `src.length + 1` of them).  When both
have terminated, both have returned normally and they agree on the output
bytes, the tape and the data pointer. -/
theorem rescan_agrees_without_byte_ff (src : List Byte) (N : Nat) (hN : 1 ≤ N)
    (hlen : src.length < 65536) (hbal : BalancedBrackets src)
    (hnest : NestingAtMost src 512) (hff : (255 : Byte) ∉ src) :
    ((∃ n, (interpret src N n).status.finished = true) ↔
      (∃ n, (reference src N n).status.finished = true)) ∧
    (∀ n, (interpret src N n).status.finished = true →
      (reference src N n).status.finished = true) ∧
    (∀ n, (reference src N n).status.finished = true →
      (interpret src N (n * (src.length + 1))).status.finished = true) ∧
    (∀ n n1, (interpret src N n).status.finished = true →
      (reference src N n1).status.finished = true →
      (interpret src N n).status = .returned ∧ (reference src N n1).status = .returned ∧
      (reference src N n1).out = (interpret src N n).out ∧
      (reference src N n1).MEMORY = (interpret src N n).MEMORY ∧
      (reference src N n1).ptr = (interpret src N n).ptr) := by
  have hA : ∀ n, (interpret src N n).status.finished = true →
      reference src N n = toRef (interpret src N n) ∧
        (interpret src N n).status = .returned := by
    intro n hfin
    obtain ⟨n0, hle, _, href, hst⟩ := sim_run hN hlen hbal hnest hff n
    have heq : interpret src N n0 = interpret src N n := run_finished_le hle hfin
    rw [heq] at href hst
    refine ⟨href, ?_⟩
    rcases hst with h | h
    · rw [h] at hfin
      cases hfin
    · exact h
  have hB : ∀ n1, (reference src N n1).status.finished = true →
      ∃ n, n ≤ n1 * (src.length + 1) ∧ reference src N n1 = toRef (interpret src N n) ∧
        (interpret src N n).status = .returned := by
    intro n1 hfin
    obtain ⟨n, _, hub, href, _⟩ := sim_run hN hlen hbal hnest hff n1
    rw [href] at hfin
    exact ⟨n, hub, href, toRef_finished hfin⟩
  have hfinA : ∀ n, (interpret src N n).status.finished = true →
      (reference src N n).status.finished = true := by
    intro n hfin
    obtain ⟨href, hret⟩ := hA n hfin
    rw [href, toRef_returned hret]
    rfl
  have hfinB : ∀ n, (reference src N n).status.finished = true →
      (interpret src N (n * (src.length + 1))).status.finished = true := by
    intro n1 hfin
    obtain ⟨n, hub, _, hret⟩ := hB n1 hfin
    have hf : (run src n (init N)).status.finished = true := by
      show (interpret src N n).status.finished = true
      rw [hret]
      rfl
    have heq : interpret src N (n1 * (src.length + 1)) = interpret src N n :=
      run_finished_le hub hf
    rw [heq]
    exact hf
  refine ⟨⟨fun ⟨n, h⟩ => ⟨n, hfinA n h⟩, fun ⟨n, h⟩ => ⟨_, hfinB n h⟩⟩, hfinA, hfinB, ?_⟩
  intro n n1 hfin hfin1
  obtain ⟨n0, _, href, hret0⟩ := hB n1 hfin1
  have hf0 : (run src n0 (init N)).status.finished = true := by
    show (interpret src N n0).status.finished = true
    rw [hret0]
    rfl
  have heq : interpret src N n = interpret src N n0 := by
    rcases Nat.le_total n n0 with h | h
    · exact (run_finished_le h hfin).symm
    · exact run_finished_le h hf0
  rw [heq, href]
  exact ⟨hret0, toRef_returned hret0, rfl, rfl, rfl⟩

/-- The source `+[.-]`: `interpret` returns after 10 steps, the reference
interpreter after 6, with the same output, tape and data pointer. -/
theorem rescan_agrees_on_a_loop :
    (interpret [43, 91, 46, 45, 93] 1 10).status = .returned ∧
    (reference [43, 91, 46, 45, 93] 1 6).status = .returned ∧
    (reference [43, 91, 46, 45, 93] 1 6).out = (interpret [43, 91, 46, 45, 93] 1 10).out ∧
    (reference [43, 91, 46, 45, 93] 1 6).MEMORY
      = (interpret [43, 91, 46, 45, 93] 1 10).MEMORY ∧
    (reference [43, 91, 46, 45, 93] 1 6).ptr = (interpret [43, 91, 46, 45, 93] 1 10).ptr :=
  (rescan_agrees_without_byte_ff [43, 91, 46, 45, 93] 1 (by decide) (by decide) (by decide)
    (by decide) (by decide)).2.2.2 10 6 (by decide) (by decide)

/-- C19 (the code at the failing input): the source `0xFF + .` has fewer than
65536 bytes and no bracket, so it meets every condition of the claim.  The
reference interpreter skips the comment byte `0xFF`, executes `+` and `.` and
returns after 4 steps with output `1` and cell 0 at `1`.  `interpret` returns
at the byte `0xFF` (as a signed `char` it equals `EOF`), after one step, with
no output and cell 0 at `0`, and stays in that state. -/
theorem rescan_stops_at_byte_ff :
    ([255, 43, 46] : List Byte).length < 65536 ∧
    BalancedBrackets [255, 43, 46] ∧ NestingAtMost [255, 43, 46] 512 ∧
    (reference [255, 43, 46] 1 4).status = .returned ∧
    (reference [255, 43, 46] 1 4).out = [1] ∧
    (reference [255, 43, 46] 1 4).MEMORY = [1] ∧
    (reference [255, 43, 46] 1 4).ptr = 0 ∧
    (∀ n, (interpret [255, 43, 46] 1 (1 + n)).status = .returned ∧
      (interpret [255, 43, 46] 1 (1 + n)).out = [] ∧
      (interpret [255, 43, 46] 1 (1 + n)).MEMORY = [0] ∧
      (interpret [255, 43, 46] 1 (1 + n)).ptr = 0) := by
  refine ⟨by decide, by decide, by decide, by decide, by decide, by decide, by decide,
    fun n => ?_⟩
  have hn : interpret [255, 43, 46] 1 (1 + n) = interpret [255, 43, 46] 1 1 := by
    unfold interpret
    rw [run_add]
    exact run_finished n (by decide)
  rw [hn]
  exact ⟨by decide, by decide, by decide, by decide⟩

end Brainfuck
